import Mathlib

/-!
Verification of the structured-value JSON codec in `phylib/utils/_misc.py`.

The development shallowly embeds the codec: `_save_json` (minus its file
system side effects) is modelled as a function from an in-memory Python
value to the serialized text, and `_load_json` as a function from the file
contents to the decoded value.  Machine-level collaborators from the Python
standard library that the codec calls (`base64.b64encode`/`b64decode`,
`json.dump`/`json.loads`, `str.isdigit`, `int()`, `str()`) are embedded
concretely and executably.  Strings are modelled at the level of ASCII
characters (the `ensure_ascii` escaping of non-ASCII characters performed
by `json.dump` is outside the scope of the claims), JSON numbers at the
level of integers (floating point is outside the scope of the claims), and
numeric arrays with a dtype drawn from a representative set of fixed-width
integer dtypes, laid out little-endian as on the original platform.
-/

/-- Error kinds raised by the Python code paths of the codec: `AssertionError`
from `assert` statements, `TypeError` from `sorted` on incomparable keys and
from `json`/`numpy` type mismatches, `ValueError` from `base64`/`numpy`
payload mismatches, `KeyError` from missing dict entries, `NameError` from
reading an unbound local variable, `IOError` from a missing file, and
`json.JSONDecodeError` from unparsable text. -/
inductive Err where
  | assertionError
  | typeError
  | valueError
  | keyError
  | nameError
  | ioError
  | jsonDecodeError
deriving DecidableEq, Repr

/-! ## Characters and ASCII string helpers -/

/-- Decimal digit test on a character (ASCII `0`-`9`), as in `str.isdigit`
restricted to ASCII text. -/
def isDigitC (c : Char) : Bool := 48 ≤ c.toNat && c.toNat ≤ 57

/-- JSON whitespace characters skipped by the parser. -/
def isWsC (c : Char) : Bool := c = ' ' || c = '\n' || c = '\t' || c = '\r'

/-- Characters that serialize to themselves inside a JSON string literal:
printable ASCII other than the quote and the backslash. -/
def safeCharB (c : Char) : Bool :=
  32 ≤ c.toNat && c.toNat < 127 && c ≠ '"' && c ≠ '\\'

/-- Left brace character, kept out of literals. -/
def lbrace : Char := Char.ofNat 123

/-- Right brace character, kept out of literals. -/
def rbrace : Char := Char.ofNat 125

/-- Lexicographic order on character lists by code point, the order Python
uses to compare strings. -/
def lexLeB : List Char → List Char → Bool
  | [], _ => true
  | _ :: _, [] => false
  | a :: as, b :: bs =>
    if a.toNat < b.toNat then true
    else if b.toNat < a.toNat then false
    else lexLeB as bs

/-! ## Decimal representation of integers, as produced by Python `str`/`repr`
and consumed by `int`. -/

/-- Digit character for a value below ten. -/
def digitChar (n : Nat) : Char := Char.ofNat (48 + n)

/-- Fuelled helper computing the decimal digits of a natural number,
most-significant first. The fuel argument only serves termination; any fuel
above the argument gives the digits. -/
def natDigitsAux : Nat → Nat → List Char
  | 0, _ => []
  | fuel + 1, n =>
    if n < 10 then [digitChar n]
    else natDigitsAux fuel (n / 10) ++ [digitChar (n % 10)]

/-- Decimal digits of a natural number, e.g. `natDigits 203 = ['2','0','3']`. -/
def natDigits (n : Nat) : List Char := natDigitsAux (n + 1) n

/-- Decimal representation of an integer as a character list, matching
Python `str` on `int`: digits, preceded by `-` for negative values. -/
def intRepr : Int → List Char
  | .ofNat m => natDigits m
  | .negSucc m => '-' :: natDigits (m + 1)

/-- Numeric value of a digit character. -/
def digitVal (c : Char) : Nat := c.toNat - 48

/-- Consume a maximal run of decimal digits, folding them into an
accumulator, and return the value together with the unconsumed rest. -/
def parseDigitsAcc (acc : Nat) : List Char → Nat × List Char
  | [] => (acc, [])
  | c :: rest =>
    if isDigitC c then parseDigitsAcc (acc * 10 + digitVal c) rest
    else (acc, c :: rest)

/-! ## Base64, modelling `base64.b64encode` / `base64.b64decode` on byte
lists (bytes as natural numbers below 256). -/

/-- Base64 alphabet in index order. -/
def b64Alphabet : List Char :=
  "ABCDEFGHIJKLMNOPQRSTUVWXYZabcdefghijklmnopqrstuvwxyz0123456789+/".data

/-- Character for a 6-bit group. -/
def b64Char (n : Nat) : Char := b64Alphabet.getD n 'A'

/-- Partial inverse of `b64Char`. -/
def b64CharVal (c : Char) : Option Nat :=
  if 65 ≤ c.toNat && c.toNat ≤ 90 then some (c.toNat - 65)
  else if 97 ≤ c.toNat && c.toNat ≤ 122 then some (c.toNat - 71)
  else if 48 ≤ c.toNat && c.toNat ≤ 57 then some (c.toNat + 4)
  else if c = '+' then some 62
  else if c = '/' then some 63
  else none

/-- Base64-encode a byte list, three bytes to four characters, with `=`
padding, as `base64.b64encode` does. -/
def b64EncodeBytes : List Nat → List Char
  | [] => []
  | [a] => [b64Char (a / 4), b64Char (a % 4 * 16), '=', '=']
  | [a, b] => [b64Char (a / 4), b64Char (a % 4 * 16 + b / 16), b64Char (b % 16 * 4), '=']
  | a :: b :: c :: rest =>
    b64Char (a / 4) :: b64Char (a % 4 * 16 + b / 16) :: b64Char (b % 16 * 4 + c / 64) ::
      b64Char (c % 64) :: b64EncodeBytes rest

/-- Base64-decode a character list, four characters to three bytes; `none`
models the `binascii.Error` raised on malformed input. -/
def b64DecodeBytes : List Char → Option (List Nat)
  | [] => some []
  | c0 :: c1 :: c2 :: c3 :: rest =>
    match b64CharVal c0, b64CharVal c1 with
    | some v0, some v1 =>
      if c2 = '=' then
        if c3 = '=' && rest.isEmpty then some [v0 * 4 + v1 / 16] else none
      else
        match b64CharVal c2 with
        | some v2 =>
          if c3 = '=' then
            if rest.isEmpty then some [v0 * 4 + v1 / 16, v1 % 16 * 16 + v2 / 4] else none
          else
            match b64CharVal c3, b64DecodeBytes rest with
            | some v3, some tl =>
              some ((v0 * 4 + v1 / 16) :: (v1 % 16 * 16 + v2 / 4) :: (v2 % 4 * 64 + v3) :: tl)
            | _, _ => none
        | none => none
    | _, _ => none
  | _ => none

/-! ## Numeric array dtypes

The embedding models a representative set of numpy's fixed-width integer
dtypes (`uint8`, `int64`), with the little-endian byte layout of the
original platform.  `Dtype.elemBytes` is the byte image of one element in a
contiguous array (`obj_contiguous.data`); `Dtype.bytesToElems` is
`np.frombuffer(data, dtype)`, failing (`ValueError`) when the buffer length
is not a multiple of the item size. -/

inductive Dtype where
  | uint8
  | int64
deriving DecidableEq, Repr

/-- Dtype name, as produced by `str(obj.dtype)`. -/
def Dtype.name : Dtype → String
  | .uint8 => "uint8"
  | .int64 => "int64"

/-- Name-to-dtype lookup performed by `np.frombuffer`'s dtype argument;
unknown names raise `TypeError` in numpy. -/
def Dtype.ofName (s : String) : Option Dtype :=
  if s = "uint8" then some .uint8
  else if s = "int64" then some .int64
  else none

/-- Range of values representable in a dtype. -/
def Dtype.inRangeB : Dtype → Int → Bool
  | .uint8, n => decide (0 ≤ n) && decide (n < 256)
  | .int64, n => decide (-(2 ^ 63) ≤ n) && decide (n < 2 ^ 63)

/-- Little-endian byte image of one element. -/
def Dtype.elemBytes : Dtype → Int → List Nat
  | .uint8, n => [(n % 256).toNat]
  | .int64, n =>
    let m := (n % 2 ^ 64).toNat
    [m % 256, m / 2 ^ 8 % 256, m / 2 ^ 16 % 256, m / 2 ^ 24 % 256,
      m / 2 ^ 32 % 256, m / 2 ^ 40 % 256, m / 2 ^ 48 % 256, m / 2 ^ 56 % 256]

/-- Byte image of a flat (row-major) element list, modelling the `data`
buffer of a contiguous array. -/
def elemsBytes (d : Dtype) : List Int → List Nat
  | [] => []
  | e :: es => d.elemBytes e ++ elemsBytes d es

/-- Rebuild signed 64-bit values from little-endian bytes. -/
def bytesToInt64 : List Nat → Option (List Int)
  | [] => some []
  | b0 :: b1 :: b2 :: b3 :: b4 :: b5 :: b6 :: b7 :: rest => do
    let m : Nat := b0 + b1 * 2 ^ 8 + b2 * 2 ^ 16 + b3 * 2 ^ 24 + b4 * 2 ^ 32 +
      b5 * 2 ^ 40 + b6 * 2 ^ 48 + b7 * 2 ^ 56
    let tl ← bytesToInt64 rest
    some ((if m < 2 ^ 63 then (m : Int) else (m : Int) - 2 ^ 64) :: tl)
  | _ => none

/-- Reinterpret a byte buffer as elements of the dtype, as
`np.frombuffer(data, dtype)` does. -/
def Dtype.bytesToElems : Dtype → List Nat → Option (List Int)
  | .uint8, bs => some (bs.map Int.ofNat)
  | .int64, bs => bytesToInt64 bs

/-! ## The data model

`PyKey`/`PyObj` embed the in-memory Python values handled by the codec;
`J` embeds the JSON trees handled by `json.dump`/`json.loads`. -/

inductive PyKey where
  | int (n : Int)
  | str (s : String)
deriving DecidableEq, Repr

inductive PyObj where
  | none
  | bool (b : Bool)
  | int (n : Int)
  | str (s : String)
  | list (xs : List PyObj)
  | dict (kvs : List (PyKey × PyObj))
  | ndarray (dtype : Dtype) (shape : List Nat) (elems : List Int)
  | qbytearray (data : List Nat)

inductive J where
  | null
  | bool (b : Bool)
  | num (n : Int)
  | str (s : String)
  | arr (xs : List J)
  | obj (kvs : List (String × J))

/-! ## Stable insertion sort, modelling Python `sorted` -/

/-- Insert before the first element the new one is `le` to; inserting this
way after sorting the tail is stable, like Python's sort. -/
def insSorted (le : α → α → Bool) (x : α) : List α → List α
  | [] => [x]
  | y :: ys => if le x y then x :: y :: ys else y :: insSorted le x ys

/-- Stable insertion sort. -/
def isortBy (le : α → α → Bool) : List α → List α
  | [] => []
  | x :: xs => insSorted le x (isortBy le xs)

/-! ## Key normalization: `_intify_keys`, `_stringify_keys` -/

/-- String image of a key, as Python `str` produces it. -/
def keyStr : PyKey → String
  | .int n => String.mk (intRepr n)
  | .str s => s

/-- Integer test on keys. `_is_integer` lives in `phylib.utils._types`
(outside the codec source file); on the key data model it holds exactly of
integer keys, per the spec's key normalization step. -/
def _is_integer : PyKey → Bool
  | .int _ => true
  | .str _ => false

/-- Python `str.isdigit` on ASCII text: non-empty and all decimal digits. -/
def strIsDigitB (s : String) : Bool := !s.data.isEmpty && s.data.all isDigitC

/-- Python `int` on a digit-only string. -/
def strToNat (s : String) : Nat := (parseDigitsAcc 0 s.data).1

/-- Key conversion performed by `_intify_keys` on each key: digit-only
string keys become integer keys. -/
def intifyKey (k : PyKey) : PyKey :=
  match k with
  | .str s => if strIsDigitB s then .int (strToNat s) else k
  | _ => k

/-- Key conversion performed by `_stringify_keys` on each key:
`k = str(k) if _is_integer(k)`. -/
def stringifyKey (k : PyKey) : PyKey :=
  if _is_integer k then .str (keyStr k) else k

/-- Assignment `out[k] = v` on an insertion-ordered mapping: an existing
key keeps its position and gets the new value, a new key is appended. -/
def insertAssoc [DecidableEq κ] (k : κ) (v : α) : List (κ × α) → List (κ × α)
  | [] => [(k, v)]
  | (k', v') :: rest => if k' = k then (k', v) :: rest else (k', v') :: insertAssoc k v rest

/-- Model of `_intify_keys`: asserts the input is a mapping, then rebuilds
it converting every digit-only string key to an integer key. -/
def _intify_keys : PyObj → Except Err PyObj
  | .dict kvs => .ok (.dict (kvs.foldl (fun out kv => insertAssoc (intifyKey kv.1) kv.2 out) []))
  | _ => .error .assertionError

/-- Model of `_stringify_keys`: asserts the input is a mapping, then
rebuilds it converting every integer key to its decimal string. -/
def _stringify_keys : PyObj → Except Err PyObj
  | .dict kvs => .ok (.dict (kvs.foldl (fun out kv => insertAssoc (stringifyKey kv.1) kv.2 out) []))
  | _ => .error .assertionError

/-! ## Serialization: `json.dump(data, f, cls=_CustomEncoder, indent=2, sort_keys=True)`

`renderJ` reproduces the text layout of `json.dump` with `indent=2`: each
container opens on its own line, entries are indented two further spaces,
separated by `,` plus a newline, keys are followed by `: `, and empty
containers render inline.  `normalizeVal` turns a Python value into the
JSON tree that `json.dump` serializes, applying `_CustomEncoder.default`
to arrays and byte blobs and `sorted(d.items())` to every mapping
(`sort_keys=True`); `sorted` raises `TypeError` when a mapping mixes
integer and string keys.  Entries are normalized before the sort here —
both failure sources raise `TypeError`, so the order of the two steps does
not affect the result. -/

/-- Tag key marking an encoded numeric array. -/
def tagNd : String := "__ndarray__"

/-- Tag key marking an encoded `QByteArray` blob. -/
def tagQb : String := "__qbytearray__"

/-- Model of `_encode_qbytearray`: `arr.toBase64()` produces the base64
text of the blob as a byte buffer, which is then base64-encoded again. -/
def _encode_qbytearray (bs : List Nat) : List Char :=
  b64EncodeBytes ((b64EncodeBytes bs).map Char.toNat)

/-- Model of `_CustomEncoder.default`: a 1-dimensional array of at most 10
elements becomes a plain Python list (`obj.tolist()`); any other array
becomes a dict tagged `__ndarray__` carrying the base64 bytes of the
contiguous data, the dtype name and the shape; a `QByteArray` becomes a
dict tagged `__qbytearray__`; anything else raises `TypeError`
(`super().default`). -/
def _CustomEncoder_default : PyObj → Except Err PyObj
  | .ndarray dt shape elems =>
    if shape.length = 1 && decide (shape.headD 0 ≤ 10) then
      .ok (.list (elems.map PyObj.int))
    else
      .ok (.dict [(.str tagNd, .str (String.mk (b64EncodeBytes (elemsBytes dt elems)))),
        (.str "dtype", .str dt.name),
        (.str "shape", .list (shape.map (fun n => PyObj.int (Int.ofNat n))))])
  | .qbytearray bs => .ok (.dict [(.str tagQb, .str (String.mk (_encode_qbytearray bs)))])
  | _ => .error .typeError

/-- Mixed integer/string keys make `sorted(d.items())` raise `TypeError`;
any homogeneous key list sorts without comparing an integer to a string. -/
def keysHomogB (kvs : List (PyKey × PyObj)) : Bool :=
  kvs.all (fun kv => _is_integer kv.1) || kvs.all (fun kv => !_is_integer kv.1)

/-- Python's order on comparable keys: numeric on integers, lexicographic
on strings.  The mixed case is never reached under `keysHomogB`. -/
def pyKeyLeB : PyKey → PyKey → Bool
  | .int a, .int b => decide (a ≤ b)
  | .str a, .str b => lexLeB a.data b.data
  | _, _ => true

/-- Order on dict entries induced by their keys, as used by
`sorted(d.items())` (values are never compared since dict keys are
unique). -/
def entryLeB (a b : PyKey × J) : Bool := pyKeyLeB a.1 b.1

mutual

/-- JSON tree produced for a Python value by `json.dump` with
`cls=_CustomEncoder, sort_keys=True`.  The array and blob cases inline
`_CustomEncoder.default` composed with the serialization of its plain
result; the keys of the tag dicts are written in their sorted order. -/
def normalizeVal : PyObj → Except Err J
  | .none => .ok .null
  | .bool b => .ok (.bool b)
  | .int n => .ok (.num n)
  | .str s => .ok (.str s)
  | .list xs => do
    let js ← normalizeList xs
    .ok (.arr js)
  | .dict kvs => do
    let es ← normalizeEntries kvs
    if keysHomogB kvs then
      .ok (.obj ((isortBy entryLeB es).map (fun e => (keyStr e.1, e.2))))
    else .error .typeError
  | .ndarray dt shape elems =>
    if shape.length = 1 && decide (shape.headD 0 ≤ 10) then
      .ok (.arr (elems.map J.num))
    else
      .ok (.obj [(tagNd, .str (String.mk (b64EncodeBytes (elemsBytes dt elems)))),
        ("dtype", .str dt.name),
        ("shape", .arr (shape.map (fun n => J.num (Int.ofNat n))))])
  | .qbytearray bs => .ok (.obj [(tagQb, .str (String.mk (_encode_qbytearray bs)))])

def normalizeList : List PyObj → Except Err (List J)
  | [] => .ok []
  | x :: xs => do
    let j ← normalizeVal x
    let js ← normalizeList xs
    .ok (j :: js)

def normalizeEntries : List (PyKey × PyObj) → Except Err (List (PyKey × J))
  | [] => .ok []
  | kv :: rest => do
    let j ← normalizeVal kv.2
    let es ← normalizeEntries rest
    .ok ((kv.1, j) :: es)

end

/-- Hexadecimal digit (lower case), used in `\u00XX` escapes. -/
def hexDigit (n : Nat) : Char :=
  if n < 10 then digitChar n else Char.ofNat (87 + n)

/-- JSON string escaping as performed by `json.dump` on ASCII text: quote,
backslash and control characters are escaped, everything else printable
passes through. -/
def escapeChars : List Char → List Char
  | [] => []
  | c :: rest =>
    (if c = '"' then ['\\', '"']
     else if c = '\\' then ['\\', '\\']
     else if c = '\n' then ['\\', 'n']
     else if c = '\t' then ['\\', 't']
     else if c = '\r' then ['\\', 'r']
     else if c = Char.ofNat 8 then ['\\', 'b']
     else if c = Char.ofNat 12 then ['\\', 'f']
     else if c.toNat < 32 then ['\\', 'u', '0', '0', hexDigit (c.toNat / 16), hexDigit (c.toNat % 16)]
     else [c]) ++ escapeChars rest

/-- Indentation for a nesting level: two spaces per level. -/
def indentC (lvl : Nat) : List Char := List.replicate (2 * lvl) ' '

mutual

/-- Text of a JSON tree at a nesting level, following the layout of
`json.dump(..., indent=2)`. -/
def renderJ : Nat → J → List Char
  | _, .null => ['n', 'u', 'l', 'l']
  | _, .bool true => ['t', 'r', 'u', 'e']
  | _, .bool false => ['f', 'a', 'l', 's', 'e']
  | _, .num n => intRepr n
  | _, .str s => '"' :: (escapeChars s.data ++ ['"'])
  | _, .arr [] => ['[', ']']
  | lvl, .arr (x :: xs) =>
    '[' :: '\n' :: (renderItems (lvl + 1) (x :: xs) ++ '\n' :: (indentC lvl ++ [']']))
  | _, .obj [] => [lbrace, rbrace]
  | lvl, .obj (kv :: kvs) =>
    lbrace :: '\n' :: (renderMembers (lvl + 1) (kv :: kvs) ++ '\n' :: (indentC lvl ++ [rbrace]))

/-- Array items, one per line at the given level, separated by commas. -/
def renderItems : Nat → List J → List Char
  | _, [] => []
  | lvl, [x] => indentC lvl ++ renderJ lvl x
  | lvl, x :: y :: ys =>
    indentC lvl ++ (renderJ lvl x ++ ',' :: '\n' :: renderItems lvl (y :: ys))

/-- Object members, one per line at the given level: quoted key, `: `,
value, separated by commas. -/
def renderMembers : Nat → List (String × J) → List Char
  | _, [] => []
  | lvl, [kv] =>
    indentC lvl ++ ('"' :: (escapeChars kv.1.data ++ '"' :: ':' :: ' ' :: renderJ lvl kv.2))
  | lvl, kv :: kv2 :: rest =>
    indentC lvl ++ ('"' :: (escapeChars kv.1.data ++ '"' :: ':' :: ' ' :: renderJ lvl kv.2)) ++
      ',' :: '\n' :: renderMembers lvl (kv2 :: rest)

end

/-- JSON tree written by `_save_json`: assert the input is a mapping,
stringify its top-level keys, and serialize. -/
def saveJsonTree (data : PyObj) : Except Err J :=
  match data with
  | .dict _ => do
    let data' ← _stringify_keys data
    normalizeVal data'
  | _ => .error .assertionError

/-- Model of `_save_json`, returning the exact text written to the file. -/
def _save_json (data : PyObj) : Except Err String :=
  (saveJsonTree data).map (fun j => String.mk (renderJ 0 j))

/-! ## Parsing: `json.loads(contents, object_hook=_json_custom_hook)`

The parser is a faithful executable model of JSON parsing restricted to
the fragment the codec traffics in (no floating-point literals).  It is
fuelled for termination; the fuel is chosen large enough that it never
runs out on text of the given length.  `fromJ` converts the parsed tree to
Python values, applying `_json_custom_hook` to every object bottom-up,
exactly as `json.loads` applies its `object_hook`.  Objects collapse
duplicate keys with last-wins semantics, as Python dict construction
does, before the hook sees them. -/

/-- Skip JSON whitespace. -/
def skipWs : List Char → List Char
  | [] => []
  | c :: rest => if isWsC c then skipWs rest else c :: rest

/-- Single-character JSON escapes. -/
def unescapeChar (c : Char) : Option Char :=
  if c = '"' then some '"'
  else if c = '\\' then some '\\'
  else if c = '/' then some '/'
  else if c = 'n' then some '\n'
  else if c = 't' then some '\t'
  else if c = 'r' then some '\r'
  else if c = 'b' then some (Char.ofNat 8)
  else if c = 'f' then some (Char.ofNat 12)
  else none

/-- Hexadecimal digit value. -/
def hexVal (c : Char) : Option Nat :=
  if 48 ≤ c.toNat && c.toNat ≤ 57 then some (c.toNat - 48)
  else if 97 ≤ c.toNat && c.toNat ≤ 102 then some (c.toNat - 87)
  else if 65 ≤ c.toNat && c.toNat ≤ 70 then some (c.toNat - 55)
  else none

/-- Parse the body of a JSON string after the opening quote, returning the
unescaped characters and the rest after the closing quote. -/
def parseStringBody : List Char → Option (List Char × List Char)
  | [] => Option.none
  | c :: rest =>
    if c = '"' then some ([], rest)
    else if c = '\\' then
      match rest with
      | [] => Option.none
      | e :: rest2 =>
        if e = 'u' then
          match rest2 with
          | h1 :: h2 :: h3 :: h4 :: rest3 => do
            let v1 ← hexVal h1
            let v2 ← hexVal h2
            let v3 ← hexVal h3
            let v4 ← hexVal h4
            let (cs, r) ← parseStringBody rest3
            some (Char.ofNat (((v1 * 16 + v2) * 16 + v3) * 16 + v4) :: cs, r)
          | _ => Option.none
        else do
          let ec ← unescapeChar e
          let (cs, r) ← parseStringBody rest2
          some (ec :: cs, r)
    else do
      let (cs, r) ← parseStringBody rest
      some (c :: cs, r)

mutual

/-- Parse one JSON value, returning it and the unconsumed rest. -/
def parseVal : Nat → List Char → Option (J × List Char)
  | 0, _ => Option.none
  | fuel + 1, s =>
    match skipWs s with
    | [] => Option.none
    | c :: r =>
      if c = 'n' then
        match r with
        | 'u' :: 'l' :: 'l' :: r2 => some (.null, r2)
        | _ => Option.none
      else if c = 't' then
        match r with
        | 'r' :: 'u' :: 'e' :: r2 => some (.bool true, r2)
        | _ => Option.none
      else if c = 'f' then
        match r with
        | 'a' :: 'l' :: 's' :: 'e' :: r2 => some (.bool false, r2)
        | _ => Option.none
      else if c = '"' then do
        let (cs, r1) ← parseStringBody r
        some (.str (String.mk cs), r1)
      else if c = '[' then
        match skipWs r with
        | [] => Option.none
        | c2 :: r2 =>
          if c2 = ']' then some (.arr [], r2)
          else do
            let (v, r3) ← parseVal fuel (c2 :: r2)
            parseArrRest fuel [v] r3
      else if c = lbrace then
        match skipWs r with
        | [] => Option.none
        | c2 :: r2 =>
          if c2 = rbrace then some (.obj [], r2)
          else do
            let (kv, r3) ← parseMember fuel (c2 :: r2)
            parseObjRest fuel [kv] r3
      else if c = '-' then
        match r with
        | c2 :: _ =>
          if isDigitC c2 then
            let (n, r2) := parseDigitsAcc 0 r
            some (.num (-(n : Int)), r2)
          else Option.none
        | [] => Option.none
      else if isDigitC c then
        let (n, r2) := parseDigitsAcc 0 (c :: r)
        some (.num (n : Int), r2)
      else Option.none

/-- Parse one `"key": value` member of an object. -/
def parseMember : Nat → List Char → Option ((String × J) × List Char)
  | 0, _ => Option.none
  | fuel + 1, s =>
    match skipWs s with
    | [] => Option.none
    | c :: r =>
      if c = '"' then do
        let (cs, r1) ← parseStringBody r
        match skipWs r1 with
        | [] => Option.none
        | c2 :: r2 =>
          if c2 = ':' then do
            let (v, r3) ← parseVal fuel r2
            some ((String.mk cs, v), r3)
          else Option.none
      else Option.none

/-- Parse the continuation of an array after its first item. -/
def parseArrRest : Nat → List J → List Char → Option (J × List Char)
  | 0, _, _ => Option.none
  | fuel + 1, acc, s =>
    match skipWs s with
    | [] => Option.none
    | c :: r =>
      if c = ']' then some (.arr acc.reverse, r)
      else if c = ',' then do
        let (v, r2) ← parseVal fuel r
        parseArrRest fuel (v :: acc) r2
      else Option.none

/-- Parse the continuation of an object after its first member. -/
def parseObjRest : Nat → List (String × J) → List Char → Option (J × List Char)
  | 0, _, _ => Option.none
  | fuel + 1, acc, s =>
    match skipWs s with
    | [] => Option.none
    | c :: r =>
      if c = ',' then do
        let (kv, r2) ← parseMember fuel r
        parseObjRest fuel (kv :: acc) r2
      else if c = rbrace then some (.obj acc.reverse, r)
      else Option.none

end

/-- Parse a complete JSON document: one value followed only by
whitespace. -/
def jsonParse (s : List Char) : Option J := do
  let (j, rest) ← parseVal (2 * s.length + 2) s
  if (skipWs rest).isEmpty then some j else Option.none

/-! ## Decoding: hook and `_load_json` -/

/-- Content of `QByteArray.fromBase64` on a byte buffer: interpret the
bytes as base64 text and decode; Qt ignores malformed input (modelled
loosely as the empty buffer, unreachable for well-formed blobs). -/
def qbaFromBase64 (bs : List Nat) : List Nat :=
  match b64DecodeBytes (bs.map Char.ofNat) with
  | some out => out
  | none => []

/-- Model of `_decode_qbytearray`.  After `base64.b64decode`, the code
imports `PyQt5` inside a `try`; when the import fails the `except` branch
passes and the trailing `return out` reads the never-assigned local `out`,
raising `NameError` (`UnboundLocalError`).  The availability of `PyQt5` is
the `qt` parameter. -/
def _decode_qbytearray (qt : Bool) (s : String) : Except Err PyObj :=
  match b64DecodeBytes s.data with
  | none => .error .valueError
  | some encoded =>
    if qt then .ok (.qbytearray (qbaFromBase64 encoded))
    else .error .nameError

/-- Convert a decoded shape list to dimension sizes; negative or
non-integer dimensions are not modelled. -/
def shapeList : List PyObj → Option (List Nat)
  | [] => some []
  | .int n :: rest =>
    if 0 ≤ n then (shapeList rest).map (fun tl => n.toNat :: tl) else Option.none
  | _ => Option.none

/-- Model of `_json_custom_hook` on a decoded object (a string-keyed dict
whose values have already been processed bottom-up): a dict carrying
`__ndarray__` is rebuilt into an array via base64, `np.frombuffer` and
`reshape`; otherwise a dict carrying `__qbytearray__` is passed to
`_decode_qbytearray`; every other dict passes through unchanged. -/
def _json_custom_hook (qt : Bool) (d : List (String × PyObj)) : Except Err PyObj :=
  if (d.lookup tagNd).isSome then
    match d.lookup tagNd with
    | some (.str s) =>
      match b64DecodeBytes s.data with
      | none => .error .valueError
      | some data =>
        match d.lookup "dtype" with
        | some (.str ds) =>
          match Dtype.ofName ds with
          | none => .error .typeError
          | some dt =>
            match dt.bytesToElems data with
            | none => .error .valueError
            | some elems =>
              match d.lookup "shape" with
              | some (.list shapeVals) =>
                match shapeList shapeVals with
                | none => .error .typeError
                | some shape =>
                  if shape.prod = elems.length then .ok (.ndarray dt shape elems)
                  else .error .valueError
              | some _ => .error .typeError
              | none => .error .keyError
        | some _ => .error .typeError
        | none => .error .keyError
    | some _ => .error .typeError
    | none => .error .keyError
  else if (d.lookup tagQb).isSome then
    match d.lookup tagQb with
    | some (.str s) => _decode_qbytearray qt s
    | some _ => .error .typeError
    | none => .error .keyError
  else .ok (.dict (d.map (fun kv => (PyKey.str kv.1, kv.2))))

mutual

/-- Python value of a parsed JSON tree, with the `object_hook` applied to
every object bottom-up as `json.loads` does. -/
def fromJ (qt : Bool) : J → Except Err PyObj
  | .null => .ok .none
  | .bool b => .ok (.bool b)
  | .num n => .ok (.int n)
  | .str s => .ok (.str s)
  | .arr xs => do
    let vs ← fromJList qt xs
    .ok (.list vs)
  | .obj kvs => do
    let es ← fromJEntries qt kvs
    _json_custom_hook qt (es.foldl (fun out kv => insertAssoc kv.1 kv.2 out) [])

def fromJList (qt : Bool) : List J → Except Err (List PyObj)
  | [] => .ok []
  | x :: xs => do
    let v ← fromJ qt x
    let vs ← fromJList qt xs
    .ok (v :: vs)

def fromJEntries (qt : Bool) : List (String × J) → Except Err (List (String × PyObj))
  | [] => .ok []
  | kv :: rest => do
    let v ← fromJ qt kv.2
    let es ← fromJEntries qt rest
    .ok ((kv.1, v) :: es)

end

/-- Model of `json.loads(contents, object_hook=_json_custom_hook)`. -/
def jsonLoadsPy (qt : Bool) (s : List Char) : Except Err PyObj :=
  match jsonParse s with
  | some j => fromJ qt j
  | none => .error .jsonDecodeError

/-- Model of `_load_json`: error on a missing file, empty mapping for
empty contents, otherwise parse with the hook and re-intify the top-level
keys.  `pathExists` models the file-existence check, `qt` the availability
of `PyQt5`, and `contents` is `path.read_text()`. -/
def _load_json (pathExists : Bool) (qt : Bool) (contents : String) : Except Err PyObj :=
  if pathExists then
    if contents = "" then .ok (.dict [])
    else do
      let out ← jsonLoadsPy qt contents.data
      _intify_keys out
  else .error .ioError

/-- Save followed by load on the same data: the round trip the spec's
properties quantify over. -/
def pipeline (qt : Bool) (data : PyObj) : Except Err PyObj :=
  (_save_json data).bind (fun s => _load_json true qt s)

/-! ## Round-trip image and well-formedness predicates -/

/-- Key order used by `sorted(d.items())`, polymorphic in the value type. -/
def entryKeyLeB (a b : PyKey × α) : Bool := pyKeyLeB a.1 b.1

mutual

/-- Value returned by decoding the encoding of a value, described
independently of the codec pipeline: mapping keys become sorted strings,
small 1-D arrays become plain lists, everything else survives unchanged. -/
def expectedValue : PyObj → PyObj
  | .none => .none
  | .bool b => .bool b
  | .int n => .int n
  | .str s => .str s
  | .list xs => .list (expectedList xs)
  | .dict kvs =>
    .dict ((isortBy entryKeyLeB (expectedEntries kvs)).map
      (fun kv => (PyKey.str (keyStr kv.1), kv.2)))
  | .ndarray dt shape elems =>
    if shape.length = 1 && decide (shape.headD 0 ≤ 10) then .list (elems.map PyObj.int)
    else .ndarray dt shape elems
  | .qbytearray bs => .qbytearray bs

def expectedList : List PyObj → List PyObj
  | [] => []
  | x :: xs => expectedValue x :: expectedList xs

def expectedEntries : List (PyKey × PyObj) → List (PyKey × PyObj)
  | [] => []
  | kv :: rest => (kv.1, expectedValue kv.2) :: expectedEntries rest

end

/-- Safe string: every character serializes to itself in a JSON string. -/
def safeStrB (s : String) : Bool := s.data.all safeCharB

/-- Keys that round-trip: safe as text and distinct from the two reserved
tag keys that the decode hook intercepts. -/
def pyKeySafeB : PyKey → Bool
  | .int _ => true
  | .str s => safeStrB s && s ≠ tagNd && s ≠ tagQb

mutual

/-- Values on which the encoder succeeds and the decoder inverts it:
safe strings, per-mapping homogeneous keys whose string images are
distinct, in-range array elements matching the shape, and bytes below
256. -/
def encodableB : PyObj → Bool
  | .none => true
  | .bool _ => true
  | .int _ => true
  | .str s => safeStrB s
  | .list xs => encodableListB xs
  | .dict kvs =>
    keysHomogB kvs && decide ((kvs.map (fun kv => keyStr kv.1)).Nodup) &&
      encodableEntriesB kvs
  | .ndarray dt _shape elems =>
    decide (elems.length = _shape.prod) && elems.all (fun e => dt.inRangeB e)
  | .qbytearray bs => bs.all (fun b => decide (b < 256))

def encodableListB : List PyObj → Bool
  | [] => true
  | x :: xs => encodableB x && encodableListB xs

def encodableEntriesB : List (PyKey × PyObj) → Bool
  | [] => true
  | kv :: rest => pyKeySafeB kv.1 && encodableB kv.2 && encodableEntriesB rest

end

/-- Top-level mappings accepted by the round-trip theorems: entry keys are
safe, entry values encodable, and the intified string images of the keys
are pairwise distinct (so neither stringification nor re-intification
merges entries). -/
def topSaveableB (kvs : List (PyKey × PyObj)) : Bool :=
  kvs.all (fun kv => pyKeySafeB kv.1 && encodableB kv.2) &&
    decide ((kvs.map (fun kv => intifyKey (.str (keyStr kv.1)))).Nodup)

/-! ## Checkers used in claim statements -/

/-- Adjacent-pairs lexicographic sortedness of a key list. -/
def chainLexLeB : List String → Bool
  | [] => true
  | [_] => true
  | a :: b :: rest => lexLeB a.data b.data && chainLexLeB (b :: rest)

mutual

/-- Every object in the tree lists its keys in lexicographic order. -/
def allObjKeysLexSortedB : J → Bool
  | .null => true
  | .bool _ => true
  | .num _ => true
  | .str _ => true
  | .arr xs => allObjKeysLexSortedL xs
  | .obj kvs => chainLexLeB (kvs.map (fun kv => kv.1)) && allObjKeysLexSortedE kvs

def allObjKeysLexSortedL : List J → Bool
  | [] => true
  | x :: xs => allObjKeysLexSortedB x && allObjKeysLexSortedL xs

def allObjKeysLexSortedE : List (String × J) → Bool
  | [] => true
  | kv :: rest => allObjKeysLexSortedB kv.2 && allObjKeysLexSortedE rest

end

/-- Keys of the top-level object are in lexicographic order. -/
def topObjKeysLexSortedB : J → Bool
  | .obj kvs => chainLexLeB (kvs.map (fun kv => kv.1))
  | _ => false

mutual

/-- Every mapping occurring anywhere in the value has only string keys. -/
def nestedKeysAllStrB : PyObj → Bool
  | .none => true
  | .bool _ => true
  | .int _ => true
  | .str _ => true
  | .list xs => nestedKeysAllStrL xs
  | .dict kvs => nestedKeysAllStrE kvs
  | .ndarray _ _ _ => true
  | .qbytearray _ => true

def nestedKeysAllStrL : List PyObj → Bool
  | [] => true
  | x :: xs => nestedKeysAllStrB x && nestedKeysAllStrL xs

def nestedKeysAllStrE : List (PyKey × PyObj) → Bool
  | [] => true
  | kv :: rest => !(_is_integer kv.1) && nestedKeysAllStrB kv.2 && nestedKeysAllStrE rest

end

/-- No top-level key is a digit-only string (they were all re-intified). -/
def topKeysIntifiedB (kvs : List (PyKey × PyObj)) : Bool :=
  kvs.all (fun kv =>
    match kv.1 with
    | .int _ => true
    | .str s => !strIsDigitB s)

mutual

/-- Whether a JSON tree contains any object (tag objects included). -/
def jHasObjB : J → Bool
  | .null => false
  | .bool _ => false
  | .num _ => false
  | .str _ => false
  | .arr xs => jHasObjL xs
  | .obj _ => true

def jHasObjL : List J → Bool
  | [] => false
  | x :: xs => jHasObjB x || jHasObjL xs

end

/-! ## Correctness of the parser on rendered text -/

mutual

/-- Strings appearing in a JSON tree are safe (serialize to themselves). -/
def jSafeB : J → Bool
  | .null => true
  | .bool _ => true
  | .num _ => true
  | .str s => safeStrB s
  | .arr xs => jSafeL xs
  | .obj kvs => jSafeE kvs

def jSafeL : List J → Bool
  | [] => true
  | x :: xs => jSafeB x && jSafeL xs

def jSafeE : List (String × J) → Bool
  | [] => true
  | kv :: rest => safeStrB kv.1 && jSafeB kv.2 && jSafeE rest

end

/-- All-whitespace test. -/
def wsAllB (l : List Char) : Bool := l.all isWsC

/-- Text whose head cannot extend a decimal literal. -/
def noDigitHeadB : List Char → Bool
  | [] => true
  | c :: _ => !isDigitC c

mutual

/-- Fuel sufficient for `parseVal` on the rendered text of a tree. -/
def fuelNeed : J → Nat
  | .null => 1
  | .bool _ => 1
  | .num _ => 1
  | .str _ => 1
  | .arr xs => 1 + fuelNeedL xs
  | .obj kvs => 1 + fuelNeedE kvs

def fuelNeedL : List J → Nat
  | [] => 1
  | x :: xs => 1 + fuelNeed x + fuelNeedL xs

def fuelNeedE : List (String × J) → Nat
  | [] => 1
  | kv :: rest => 1 + fuelNeed kv.2 + fuelNeedE rest

end

/-- Induction statement for `parseVal`: parsing rendered text (with
optional leading whitespace, followed by non-digit text) yields the tree
back. -/
def PA (f : Nat) : Prop := ∀ (j : J) (lvl : Nat) (ws rest : List Char),
  jSafeB j = true → fuelNeed j ≤ f → wsAllB ws = true → noDigitHeadB rest = true →
  parseVal f (ws ++ (renderJ lvl j ++ rest)) = some (j, rest)

/-- Induction statement for `parseArrRest` on the remaining items. -/
def PB (f : Nat) : Prop := ∀ (xs acc : List J) (lvl : Nat) (rest : List Char),
  xs ≠ [] → jSafeL xs = true → fuelNeedL xs + 1 ≤ f →
  parseArrRest f acc
      ((',' :: '\n' :: renderItems (lvl + 1) xs) ++ ('\n' :: (indentC lvl ++ (']' :: rest)))) =
    some (.arr (acc.reverse ++ xs), rest)

/-- Induction statement for `parseObjRest` on the remaining members. -/
def PC (f : Nat) : Prop := ∀ (kvs acc : List (String × J)) (lvl : Nat) (rest : List Char),
  kvs ≠ [] → jSafeE kvs = true → fuelNeedE kvs + 1 ≤ f →
  parseObjRest f acc
      ((',' :: '\n' :: renderMembers (lvl + 1) kvs) ++ ('\n' :: (indentC lvl ++ (rbrace :: rest)))) =
    some (.obj (acc.reverse ++ kvs), rest)

/-- Induction statement for `parseMember` on a rendered member with
optional leading whitespace. -/
def PD (f : Nat) : Prop := ∀ (k : String) (v : J) (lvl : Nat) (ws rest : List Char),
  safeStrB k = true → jSafeB v = true → fuelNeed v + 1 ≤ f → wsAllB ws = true →
  noDigitHeadB rest = true →
  parseMember f
      (ws ++ ('"' :: (escapeChars k.data ++ '"' :: ':' :: ' ' :: (renderJ lvl v ++ rest)))) =
    some ((k, v), rest)

/-- Relation between a normalized entry and its expected decoded entry:
same key (safe), safe normalized value, and the decode hook recovers the
expected value. -/
def RelEJ (ej : PyKey × J) (kv : PyKey × PyObj) : Prop :=
  ej.1 = kv.1 ∧ pyKeySafeB ej.1 = true ∧ jSafeB ej.2 = true ∧ fromJ true ej.2 = .ok kv.2

/-! ## The full round trip -/

/-- Top-level key stringification as a plain map, valid when the
stringified keys are distinct. -/
def stringifiedEntries (kvs : List (PyKey × PyObj)) : List (PyKey × PyObj) :=
  kvs.map (fun kv => (PyKey.str (keyStr kv.1), kv.2))

/-- Value produced by `_load_json` after `_save_json` on a well-formed
mapping, described without running the codec: stringify the keys, sort the
entries, take the expected image of each value and re-intify each key. -/
def expectedLoad (kvs : List (PyKey × PyObj)) : PyObj :=
  .dict ((isortBy entryKeyLeB (expectedEntries (stringifiedEntries kvs))).map
    (fun kv => (intifyKey kv.1, kv.2)))

/-! ## Helpers for the claim theorems -/

/-- Entry order by the string image of the key: what `entryLeB` computes
on entries whose keys are all strings. -/
def strEntryLeB (a b : PyKey × J) : Bool := lexLeB (keyStr a.1).data (keyStr b.1).data

theorem lexLeB_refl : ∀ l : List Char, lexLeB l l = true := by
  intro l
  induction l with
  | nil => rfl
  | cons a as ih => simp [lexLeB, ih]

theorem lexLeB_total : ∀ l1 l2 : List Char, lexLeB l1 l2 = true ∨ lexLeB l2 l1 = true := by
  intro l1
  induction l1 with
  | nil => intro l2; left; rfl
  | cons a as ih =>
    intro l2
    cases l2 with
    | nil => right; rfl
    | cons b bs =>
      by_cases hab : a.toNat < b.toNat
      · left; simp [lexLeB, hab]
      · by_cases hba : b.toNat < a.toNat
        · right; simp [lexLeB, hba]
        · rcases ih bs with h | h
          · left; simp [lexLeB, hab, hba, h]
          · right; simp [lexLeB, hab, hba, h]

theorem lexLeB_trans : ∀ l1 l2 l3 : List Char,
    lexLeB l1 l2 = true → lexLeB l2 l3 = true → lexLeB l1 l3 = true := by
  intro l1
  induction l1 with
  | nil => intro l2 l3 _ _; rfl
  | cons a as ih =>
    intro l2 l3 h12 h23
    cases l2 with
    | nil => simp [lexLeB] at h12
    | cons b bs =>
      cases l3 with
      | nil => simp [lexLeB] at h23
      | cons c cs =>
        simp only [lexLeB] at h12 h23 ⊢
        by_cases hab : a.toNat < b.toNat
        · by_cases hbc : b.toNat < c.toNat
          · have hac : a.toNat < c.toNat := Nat.lt_trans hab hbc
            simp [hac]
          · by_cases hcb : c.toNat < b.toNat
            · simp [hbc, hcb] at h23
            · have hbc' : b.toNat = c.toNat := Nat.le_antisymm (Nat.le_of_not_lt hcb) (Nat.le_of_not_lt hbc)
              simp [hbc' ▸ hab]
        · by_cases hba : b.toNat < a.toNat
          · simp [hab, hba] at h12
          · have hab' : a.toNat = b.toNat := Nat.le_antisymm (Nat.le_of_not_lt hba) (Nat.le_of_not_lt hab)
            by_cases hbc : b.toNat < c.toNat
            · simp [hab' ▸ hbc]
            · by_cases hcb : c.toNat < b.toNat
              · simp [hbc, hcb] at h23
              · simp only [hab, hba, if_neg, ite_false] at h12
                simp only [hbc, hcb, if_neg, ite_false] at h23
                have hac : ¬ a.toNat < c.toNat := by omega
                have hca : ¬ c.toNat < a.toNat := by omega
                simp [hac, hca, ih bs cs (by simpa using h12) (by simpa using h23)]

theorem lexLeB_antisymm : ∀ l1 l2 : List Char,
    lexLeB l1 l2 = true → lexLeB l2 l1 = true → l1 = l2 := by
  intro l1
  induction l1 with
  | nil =>
    intro l2 _ h21
    cases l2 with
    | nil => rfl
    | cons b bs => simp [lexLeB] at h21
  | cons a as ih =>
    intro l2 h12 h21
    cases l2 with
    | nil => simp [lexLeB] at h12
    | cons b bs =>
      simp only [lexLeB] at h12 h21
      by_cases hab : a.toNat < b.toNat
      · have : ¬ b.toNat < a.toNat := by omega
        simp [hab, this] at h21
      · by_cases hba : b.toNat < a.toNat
        · simp [hab, hba] at h12
        · have hval : a.toNat = b.toNat := by omega
          have hc : a = b := by
            have ha := Char.ofNat_toNat a
            have hb := Char.ofNat_toNat b
            rw [← ha, ← hb, hval]
          subst hc
          simp only [hab, hba, if_neg, ite_false] at h12 h21
          rw [ih bs (by simpa using h12) (by simpa using h21)]

theorem natDigitsAux_fuel : ∀ f1 f2 n, n < f1 → n < f2 →
    natDigitsAux f1 n = natDigitsAux f2 n := by
  intro f1
  induction f1 with
  | zero => intro f2 n h; omega
  | succ f ih =>
    intro f2 n h1 h2
    cases f2 with
    | zero => omega
    | succ g =>
      by_cases hn : n < 10
      · simp [natDigitsAux, hn]
      · have hd : n / 10 < n := Nat.div_lt_self (by omega) (by omega)
        simp only [natDigitsAux, hn, if_false, ite_false]
        rw [ih g (n / 10) (by omega) (by omega)]

theorem digitChar_toNat (n : Nat) (h : n < 10) : (digitChar n).toNat = 48 + n := by
  interval_cases n <;> decide

theorem isDigitC_digitChar (n : Nat) (h : n < 10) : isDigitC (digitChar n) = true := by
  interval_cases n <;> decide

theorem digitVal_digitChar (n : Nat) (h : n < 10) : digitVal (digitChar n) = n := by
  interval_cases n <;> decide

theorem natDigitsAux_all_digits : ∀ f n, n < f →
    ∀ c ∈ natDigitsAux f n, isDigitC c = true := by
  intro f
  induction f with
  | zero => intro n h; omega
  | succ f ih =>
    intro n hn c hc
    by_cases h10 : n < 10
    · simp [natDigitsAux, h10] at hc
      subst hc
      exact isDigitC_digitChar n h10
    · simp only [natDigitsAux, h10, if_false, ite_false, List.mem_append, List.mem_singleton] at hc
      rcases hc with hc | hc
      · exact ih (n / 10) (by omega) c hc
      · subst hc
        exact isDigitC_digitChar (n % 10) (Nat.mod_lt n (by omega))

theorem natDigitsAux_ne_nil : ∀ f n, n < f → natDigitsAux f n ≠ [] := by
  intro f n h
  cases f with
  | zero => omega
  | succ f =>
    by_cases h10 : n < 10
    · simp [natDigitsAux, h10]
    · simp [natDigitsAux, h10]

theorem parseDigitsAcc_natDigitsAux : ∀ n f acc rest, n < f →
    parseDigitsAcc acc (natDigitsAux f n ++ rest) =
      parseDigitsAcc (acc * 10 ^ (natDigitsAux f n).length + n) rest := by
  intro n
  induction n using Nat.strong_induction_on with
  | _ n ih =>
    intro f acc rest hf
    cases f with
    | zero => omega
    | succ f =>
      by_cases h10 : n < 10
      · simp only [natDigitsAux, h10, if_true, ite_true, List.singleton_append,
          List.length_singleton, pow_one]
        simp [parseDigitsAcc, isDigitC_digitChar n h10, digitVal_digitChar n h10]
      · have hd : n / 10 < n := Nat.div_lt_self (by omega) (by omega)
        simp only [natDigitsAux, h10, if_false, ite_false, List.append_assoc,
          List.singleton_append, List.length_append, List.length_singleton]
        rw [ih (n / 10) hd f acc (digitChar (n % 10) :: rest) (by omega)]
        have hm : n % 10 < 10 := Nat.mod_lt n (by omega)
        simp only [parseDigitsAcc, isDigitC_digitChar _ hm, if_true, ite_true,
          digitVal_digitChar _ hm]
        congr 1
        have : (acc * 10 ^ (natDigitsAux f (n / 10)).length + n / 10) * 10 + n % 10
            = acc * (10 ^ (natDigitsAux f (n / 10)).length * 10) + (n / 10 * 10 + n % 10) := by ring
        rw [this, pow_succ]
        congr 1
        omega

theorem parseDigitsAcc_stop (m : Nat) (rest : List Char)
    (h : rest = [] ∨ ∃ c rest', rest = c :: rest' ∧ isDigitC c = false) :
    parseDigitsAcc m rest = (m, rest) := by
  rcases h with h | ⟨c, rest', hr, hc⟩
  · subst h; rfl
  · subst hr; simp [parseDigitsAcc, hc]

/-- Main correctness fact for the decimal digits: parsing the digits of `n`
followed by non-digit text yields `n` and the rest. -/
theorem parseDigitsAcc_natDigits (n : Nat) (rest : List Char)
    (h : rest = [] ∨ ∃ c rest', rest = c :: rest' ∧ isDigitC c = false) :
    parseDigitsAcc 0 (natDigits n ++ rest) = (n, rest) := by
  rw [natDigits, parseDigitsAcc_natDigitsAux n (n + 1) 0 rest (by omega)]
  simpa using parseDigitsAcc_stop n rest h

theorem b64CharVal_b64Char : ∀ n < 64, b64CharVal (b64Char n) = some n := by decide

theorem b64Char_ne_eq : ∀ n < 64, b64Char n ≠ '=' := by decide

theorem b64Char_safe : ∀ n, safeCharB (b64Char n) = true := by
  intro n
  by_cases h : n < 64
  · revert n
    decide
  · have : b64Alphabet.length ≤ n := by
      have : b64Alphabet.length = 64 := by decide
      omega
    unfold b64Char
    rw [List.getD_eq_default _ _ this]
    decide

/-- Round trip: decoding an encoded byte list restores it exactly. -/
theorem b64_roundtrip : ∀ bs : List Nat, (∀ x ∈ bs, x < 256) →
    b64DecodeBytes (b64EncodeBytes bs) = some bs := by
  intro bs
  induction bs using b64EncodeBytes.induct with
  | case1 => intro _; rfl
  | case2 a =>
    intro h
    have ha : a < 256 := h a (by simp)
    have h0 : a / 4 < 64 := by omega
    have h1 : a % 4 * 16 < 64 := by omega
    simp only [b64EncodeBytes, b64DecodeBytes, b64CharVal_b64Char _ h0,
      b64CharVal_b64Char _ h1]
    simp only [List.isEmpty_nil, Bool.and_true, decide_True, if_true, ite_true,
      Option.some.injEq, List.cons.injEq, and_true]
    omega
  | case3 a b =>
    intro h
    have ha : a < 256 := h a (by simp)
    have hb : b < 256 := h b (by simp)
    have h0 : a / 4 < 64 := by omega
    have h1 : a % 4 * 16 + b / 16 < 64 := by omega
    have h2 : b % 16 * 4 < 64 := by omega
    simp only [b64EncodeBytes, b64DecodeBytes, b64CharVal_b64Char _ h0,
      b64CharVal_b64Char _ h1, b64CharVal_b64Char _ h2]
    rw [if_neg (b64Char_ne_eq _ h2)]
    simp only [List.isEmpty_nil, decide_True, if_true, ite_true, Option.some.injEq,
      List.cons.injEq, and_true]
    omega
  | case4 a b c rest ih =>
    intro h
    have ha : a < 256 := h a (by simp)
    have hb : b < 256 := h b (by simp)
    have hc : c < 256 := h c (by simp)
    have h0 : a / 4 < 64 := by omega
    have h1 : a % 4 * 16 + b / 16 < 64 := by omega
    have h2 : b % 16 * 4 + c / 64 < 64 := by omega
    have h3 : c % 64 < 64 := by omega
    have hrest : ∀ x ∈ rest, x < 256 := fun x hx => h x (by simp [hx])
    simp only [b64EncodeBytes, b64DecodeBytes, b64CharVal_b64Char _ h0,
      b64CharVal_b64Char _ h1]
    rw [if_neg (b64Char_ne_eq _ h2)]
    simp only [b64CharVal_b64Char _ h2]
    rw [if_neg (b64Char_ne_eq _ h3)]
    simp only [b64CharVal_b64Char _ h3, ih hrest, Option.some.injEq]
    have e1 : a / 4 * 4 + (a % 4 * 16 + b / 16) / 16 = a := by omega
    have e2 : (a % 4 * 16 + b / 16) % 16 * 16 + (b % 16 * 4 + c / 64) / 4 = b := by omega
    have e3 : (b % 16 * 4 + c / 64) % 4 * 64 + c % 64 = c := by omega
    rw [e1, e2, e3]

theorem b64EncodeBytes_all_safe : ∀ bs : List Nat, ∀ c ∈ b64EncodeBytes bs, safeCharB c = true := by
  intro bs
  induction bs using b64EncodeBytes.induct with
  | case1 => intro c hc; simp [b64EncodeBytes] at hc
  | case2 a =>
    intro c hc
    simp only [b64EncodeBytes, List.mem_cons, List.mem_singleton, List.not_mem_nil, or_false] at hc
    rcases hc with h | h | h | h <;> subst h <;> first | exact b64Char_safe _ | decide
  | case3 a b =>
    intro c hc
    simp only [b64EncodeBytes, List.mem_cons, List.not_mem_nil, or_false] at hc
    rcases hc with h | h | h | h <;> subst h <;> first | exact b64Char_safe _ | decide
  | case4 a b c' rest ih =>
    intro c hc
    simp only [b64EncodeBytes, List.mem_cons] at hc
    rcases hc with h | h | h | h | h
    · subst h; exact b64Char_safe _
    · subst h; exact b64Char_safe _
    · subst h; exact b64Char_safe _
    · subst h; exact b64Char_safe _
    · exact ih c h

theorem Dtype.ofName_name : ∀ d : Dtype, Dtype.ofName d.name = some d := by
  intro d
  cases d <;> rfl

theorem elemBytes_lt_256 : ∀ (d : Dtype) (n : Int), ∀ x ∈ d.elemBytes n, x < 256 := by
  intro d n x hx
  cases d with
  | uint8 =>
    simp only [Dtype.elemBytes, List.mem_singleton] at hx
    omega
  | int64 =>
    simp only [Dtype.elemBytes, List.mem_cons, List.not_mem_nil, or_false] at hx
    rcases hx with h | h | h | h | h | h | h | h <;> omega

theorem elemsBytes_lt_256 : ∀ (d : Dtype) (es : List Int), ∀ x ∈ elemsBytes d es, x < 256 := by
  intro d es
  induction es with
  | nil => intro x hx; simp [elemsBytes] at hx
  | cons e es ih =>
    intro x hx
    simp only [elemsBytes, List.mem_append] at hx
    rcases hx with h | h
    · exact elemBytes_lt_256 d e x h
    · exact ih x h

/-- Round trip of the byte layout: reading back the byte image of an
in-range element list restores the elements. -/
theorem bytesToElems_elemsBytes : ∀ (d : Dtype) (es : List Int),
    (∀ e ∈ es, d.inRangeB e = true) →
    d.bytesToElems (elemsBytes d es) = some es := by
  intro d es
  induction es with
  | nil =>
    intro _
    cases d <;> rfl
  | cons e es ih =>
    intro h
    have he : d.inRangeB e = true := h e (by simp)
    have hrest := ih (fun x hx => h x (by simp [hx]))
    cases d with
    | uint8 =>
      simp only [Dtype.inRangeB, Bool.and_eq_true, decide_eq_true_eq] at he
      simp only [Dtype.bytesToElems, Option.some.injEq] at hrest
      simp only [Dtype.bytesToElems, elemsBytes, Dtype.elemBytes, List.singleton_append,
        List.map_cons, hrest, Option.some.injEq, List.cons.injEq, and_true,
        Int.ofNat_eq_coe]
      omega
    | int64 =>
      simp only [Dtype.inRangeB, Bool.and_eq_true, decide_eq_true_eq] at he
      simp only [Dtype.bytesToElems, elemsBytes, Dtype.elemBytes, List.cons_append,
        List.nil_append]
      simp only [Dtype.bytesToElems] at hrest
      rw [show (elemsBytes Dtype.int64 es) = elemsBytes .int64 es from rfl] at hrest ⊢
      simp only [bytesToInt64, hrest, Option.bind_eq_bind, Option.some_bind,
        Option.some.injEq, List.cons.injEq, and_true]
      have hm : ((e % 2 ^ 64).toNat : Int) = e % 2 ^ 64 := by omega
      omega

theorem insSorted_perm (le : α → α → Bool) (x : α) :
    ∀ l : List α, (insSorted le x l).Perm (x :: l) := by
  intro l
  induction l with
  | nil => exact List.Perm.refl _
  | cons y ys ih =>
    by_cases h : le x y = true
    · simp [insSorted, h]
    · simp only [insSorted, h, if_false, ite_false]
      exact (ih.cons y).trans (List.Perm.swap x y ys)

theorem isortBy_perm (le : α → α → Bool) :
    ∀ l : List α, (isortBy le l).Perm l := by
  intro l
  induction l with
  | nil => exact List.Perm.refl _
  | cons x xs ih =>
    exact (insSorted_perm le x (isortBy le xs)).trans (ih.cons x)

theorem insSorted_pairwise (le : α → α → Bool)
    (htot : ∀ a b, le a b = true ∨ le b a = true)
    (htrans : ∀ a b c, le a b = true → le b c = true → le a c = true)
    (x : α) : ∀ l : List α, l.Pairwise (fun a b => le a b = true) →
    (insSorted le x l).Pairwise (fun a b => le a b = true) := by
  intro l
  induction l with
  | nil => intro _; simp [insSorted]
  | cons y ys ih =>
    intro hp
    rcases List.pairwise_cons.mp hp with ⟨hy, hys⟩
    by_cases h : le x y = true
    · simp only [insSorted, h, if_true, ite_true]
      refine List.pairwise_cons.mpr ⟨?_, hp⟩
      intro z hz
      rcases List.mem_cons.mp hz with hz | hz
      · subst hz; exact h
      · exact htrans x y z h (hy z hz)
    · simp only [insSorted, h, if_false, ite_false]
      refine List.pairwise_cons.mpr ⟨?_, ih hys⟩
      intro z hz
      have hmem := (insSorted_perm le x ys).mem_iff.mp hz
      rcases List.mem_cons.mp hmem with hz' | hz'
      · rw [hz']
        rcases htot x y with h' | h'
        · exact absurd h' h
        · exact h'
      · exact hy z hz'

theorem isortBy_pairwise (le : α → α → Bool)
    (htot : ∀ a b, le a b = true ∨ le b a = true)
    (htrans : ∀ a b c, le a b = true → le b c = true → le a c = true) :
    ∀ l : List α, (isortBy le l).Pairwise (fun a b => le a b = true) := by
  intro l
  induction l with
  | nil => simp [isortBy]
  | cons x xs ih => exact insSorted_pairwise le htot htrans x (isortBy le xs) ih

/-- Two sorted lists that are permutations of each other and whose order
relation separates their elements are equal. -/
theorem sorted_perm_eq {leP : α → α → Prop} :
    ∀ l1 l2 : List α, l1.Perm l2 →
    l1.Pairwise leP → l2.Pairwise leP →
    (∀ a b, a ∈ l1 → b ∈ l1 → leP a b → leP b a → a = b) →
    l1 = l2 := by
  intro l1
  induction l1 with
  | nil => intro l2 hperm _ _ _; exact (hperm.nil_eq).symm ▸ rfl
  | cons a t1 ih =>
    intro l2 hperm hp1 hp2 hanti
    cases l2 with
    | nil => exact absurd hperm.symm (by simp)
    | cons b t2 =>
      rcases List.pairwise_cons.mp hp1 with ⟨ha, hp1'⟩
      rcases List.pairwise_cons.mp hp2 with ⟨hb, hp2'⟩
      by_cases hab : a = b
      · subst hab
        have htail : t1.Perm t2 := hperm.cons_inv
        have := ih t2 htail hp1' hp2'
          (fun x y hx hy => hanti x y (by simp [hx]) (by simp [hy]))
        rw [this]
      · have hbmem : b ∈ a :: t1 := hperm.symm.subset (by simp)
        have hamem : a ∈ b :: t2 := hperm.subset (by simp)
        have hbt1 : b ∈ t1 := by
          rcases List.mem_cons.mp hbmem with h | h
          · exact absurd h.symm hab
          · exact h
        have hat2 : a ∈ t2 := by
          rcases List.mem_cons.mp hamem with h | h
          · exact absurd h hab
          · exact h
        have h1 : leP a b := ha b hbt1
        have h2 : leP b a := hb a hat2
        exact absurd (hanti a b (by simp) (by simp [hbt1]) h1 h2) hab

theorem fuelNeed_pos : ∀ j : J, 1 ≤ fuelNeed j := by
  intro j
  cases j <;> simp [fuelNeed]

theorem mkData : ∀ s : String, String.mk s.data = s := by
  intro s
  cases s
  rfl

theorem skipWs_append_ws : ∀ ws s, wsAllB ws = true → skipWs (ws ++ s) = skipWs s := by
  intro ws
  induction ws with
  | nil => intro s _; rfl
  | cons c cs ih =>
    intro s h
    simp only [wsAllB, List.all_cons, Bool.and_eq_true] at h
    simp only [List.cons_append, skipWs, h.1, if_true, ite_true]
    exact ih s (by simp [wsAllB, h.2])

theorem skipWs_not_ws : ∀ c s, isWsC c = false → skipWs (c :: s) = c :: s := by
  intro c s h
  simp [skipWs, h]

theorem indentC_wsAll : ∀ lvl, wsAllB (indentC lvl) = true := by
  intro lvl
  simp only [wsAllB, indentC, List.all_eq_true]
  intro c hc
  rw [List.eq_of_mem_replicate hc]
  rfl

theorem safeCharB_facts (c : Char) (h : safeCharB c = true) :
    c ≠ '"' ∧ c ≠ '\\' ∧ c ≠ '\n' ∧ c ≠ '\t' ∧ c ≠ '\r' ∧
    c ≠ Char.ofNat 8 ∧ c ≠ Char.ofNat 12 ∧ ¬(c.toNat < 32) := by
  simp only [safeCharB, Bool.and_eq_true, decide_eq_true_eq, bne_iff_ne, ne_eq,
    Bool.and_eq_true] at h
  obtain ⟨⟨⟨h1, h2⟩, h3⟩, h4⟩ := h
  refine ⟨h3, h4, ?_, ?_, ?_, ?_, ?_, by omega⟩ <;>
    (intro he; rw [he] at h1; revert h1; decide)

theorem escapeChars_safe : ∀ cs, (∀ c ∈ cs, safeCharB c = true) → escapeChars cs = cs := by
  intro cs
  induction cs with
  | nil => intro _; rfl
  | cons c rest ih =>
    intro h
    obtain ⟨h1, h2, h3, h4, h5, h6, h7, h8⟩ := safeCharB_facts c (h c (by simp))
    simp only [escapeChars, h1, h2, h3, h4, h5, h6, h7, h8, if_false, ite_false,
      if_neg, List.singleton_append]
    rw [ih (fun x hx => h x (by simp [hx]))]

theorem parseStringBody_safe : ∀ cs rest, (∀ c ∈ cs, safeCharB c = true) →
    parseStringBody (cs ++ '"' :: rest) = some (cs, rest) := by
  intro cs
  induction cs with
  | nil =>
    intro rest _
    rw [List.nil_append, parseStringBody.eq_def]
    simp
  | cons c cs ih =>
    intro rest h
    obtain ⟨h1, h2, _, _, _, _, _, _⟩ := safeCharB_facts c (h c (by simp))
    rw [List.cons_append, parseStringBody.eq_def]
    simp only [if_neg h1, if_neg h2, ih rest (fun x hx => h x (by simp [hx]))]
    rfl

theorem char_ne_of_toNat_ne (c d : Char) (h : c.toNat ≠ d.toNat) : c ≠ d := by
  intro he
  exact h (he ▸ rfl)

theorem isDigitC_facts (c : Char) (h : isDigitC c = true) :
    c ≠ 'n' ∧ c ≠ 't' ∧ c ≠ 'f' ∧ c ≠ '"' ∧ c ≠ '[' ∧ c ≠ lbrace ∧ c ≠ '-' ∧
    isWsC c = false ∧ c ≠ ']' ∧ c ≠ ',' ∧ c ≠ rbrace ∧ c ≠ ':' := by
  simp only [isDigitC, Bool.and_eq_true, decide_eq_true_eq] at h
  obtain ⟨h1, h2⟩ := h
  have hn : ∀ d : Char, d.toNat < 48 ∨ 57 < d.toNat → c ≠ d := by
    intro d hd he
    rw [he] at h1 h2
    omega
  have hsp : c ≠ ' ' := hn _ (by decide)
  have hnl : c ≠ '\n' := hn _ (by decide)
  have htb : c ≠ '\t' := hn _ (by decide)
  have hcr : c ≠ '\r' := hn _ (by decide)
  refine ⟨hn _ (by decide), hn _ (by decide), hn _ (by decide), hn _ (by decide),
    hn _ (by decide), hn _ (by decide), hn _ (by decide), ?_,
    hn _ (by decide), hn _ (by decide), hn _ (by decide), hn _ (by decide)⟩
  simp [isWsC, hsp, hnl, htb, hcr]

theorem skipWs_cons_ws : ∀ c s, isWsC c = true → skipWs (c :: s) = skipWs s := by
  intro c s h
  simp [skipWs, h]

theorem natDigits_ne_nil (n : Nat) : natDigits n ≠ [] :=
  natDigitsAux_ne_nil (n + 1) n (by omega)

theorem natDigits_all_digits (n : Nat) : ∀ c ∈ natDigits n, isDigitC c = true :=
  natDigitsAux_all_digits (n + 1) n (by omega)

/-- Every rendered value starts with a character that stops whitespace
skipping and is none of the closing delimiters. -/
theorem renderJ_head : ∀ lvl (j : J), ∃ c r', renderJ lvl j = c :: r' ∧
    isWsC c = false ∧ c ≠ ']' ∧ c ≠ rbrace ∧ c ≠ ',' := by
  intro lvl j
  cases j with
  | null => exact ⟨'n', _, rfl, by decide, by decide, by decide, by decide⟩
  | bool b =>
    cases b with
    | true => exact ⟨'t', _, rfl, by decide, by decide, by decide, by decide⟩
    | false => exact ⟨'f', _, rfl, by decide, by decide, by decide, by decide⟩
  | num n =>
    cases n with
    | ofNat m =>
      rcases hd : natDigits m with _ | ⟨c, r'⟩
      · exact absurd hd (natDigits_ne_nil m)
      · have hc : isDigitC c = true := natDigits_all_digits m c (by rw [hd]; simp)
        obtain ⟨_, _, _, _, _, _, _, hws, hrb, hcm, hrb2, _⟩ := isDigitC_facts c hc
        exact ⟨c, r', by simp [renderJ, intRepr, hd], hws, hrb, hrb2, hcm⟩
    | negSucc m =>
      exact ⟨'-', _, rfl, by decide, by decide, by decide, by decide⟩
  | str s => exact ⟨'"', _, rfl, by decide, by decide, by decide, by decide⟩
  | arr xs =>
    cases xs with
    | nil => exact ⟨'[', _, rfl, by decide, by decide, by decide, by decide⟩
    | cons x xs => exact ⟨'[', _, rfl, by decide, by decide, by decide, by decide⟩
  | obj kvs =>
    cases kvs with
    | nil => exact ⟨lbrace, _, rfl, by decide, by decide, by decide, by decide⟩
    | cons kv kvs => exact ⟨lbrace, _, rfl, by decide, by decide, by decide, by decide⟩

mutual

theorem fuelNeed_le_len : ∀ (j : J) (lvl : Nat), fuelNeed j ≤ (renderJ lvl j).length
  | .null, lvl => by simp [fuelNeed, renderJ]
  | .bool b, lvl => by cases b <;> simp [fuelNeed, renderJ]
  | .num n, lvl => by
    cases n with
    | ofNat m =>
      have := natDigits_ne_nil m
      have hl : 1 ≤ (natDigits m).length := by
        cases h : natDigits m with
        | nil => exact absurd h this
        | cons c r => simp
      simp only [fuelNeed, renderJ, intRepr]
      omega
    | negSucc m => simp [fuelNeed, renderJ, intRepr]
  | .str s, lvl => by simp [fuelNeed, renderJ]
  | .arr [], lvl => by simp [fuelNeed, fuelNeedL, renderJ]
  | .arr (x :: xs), lvl => by
    have h := fuelNeedL_le_len (x :: xs) (lvl + 1)
    simp only [fuelNeed, renderJ, List.length_cons, List.length_append, indentC,
      List.length_replicate, List.length_singleton]
    omega
  | .obj [], lvl => by simp [fuelNeed, fuelNeedE, renderJ]
  | .obj (kv :: kvs), lvl => by
    have h := fuelNeedE_le_len (kv :: kvs) (lvl + 1)
    simp only [fuelNeed, renderJ, List.length_cons, List.length_append, indentC,
      List.length_replicate, List.length_singleton]
    omega

theorem fuelNeedL_le_len : ∀ (xs : List J) (lvl : Nat),
    fuelNeedL xs ≤ (renderItems lvl xs).length + 2
  | [], lvl => by simp [fuelNeedL, renderItems]
  | [x], lvl => by
    have h := fuelNeed_le_len x lvl
    simp only [fuelNeedL, renderItems, List.length_append, indentC, List.length_replicate]
    omega
  | x :: y :: ys, lvl => by
    have h1 := fuelNeed_le_len x lvl
    have h2 := fuelNeedL_le_len (y :: ys) lvl
    simp only [fuelNeedL, renderItems, List.length_append, List.length_cons, indentC,
      List.length_replicate] at *
    omega

theorem fuelNeedE_le_len : ∀ (kvs : List (String × J)) (lvl : Nat),
    fuelNeedE kvs ≤ (renderMembers lvl kvs).length + 2
  | [], lvl => by simp [fuelNeedE, renderMembers]
  | [kv], lvl => by
    have h := fuelNeed_le_len kv.2 lvl
    simp only [fuelNeedE, renderMembers, List.length_append, List.length_cons, indentC,
      List.length_replicate]
    omega
  | kv :: kv2 :: rest, lvl => by
    have h1 := fuelNeed_le_len kv.2 lvl
    have h2 := fuelNeedE_le_len (kv2 :: rest) lvl
    simp only [fuelNeedE, renderMembers, List.length_append, List.length_cons, indentC,
      List.length_replicate] at *
    omega

end

theorem parseArrRest_close : ∀ f acc lvl rest,
    parseArrRest (f + 1) acc ('\n' :: (indentC lvl ++ (']' :: rest))) =
      some (.arr acc.reverse, rest) := by
  intro f acc lvl rest
  have h1 : skipWs ('\n' :: (indentC lvl ++ (']' :: rest))) = ']' :: rest := by
    rw [skipWs_cons_ws _ _ (by decide), skipWs_append_ws _ _ (indentC_wsAll lvl),
      skipWs_not_ws _ _ (by decide)]
  rw [parseArrRest.eq_def]
  simp [h1]

theorem parseObjRest_close : ∀ f acc lvl rest,
    parseObjRest (f + 1) acc ('\n' :: (indentC lvl ++ (rbrace :: rest))) =
      some (.obj acc.reverse, rest) := by
  intro f acc lvl rest
  have h1 : skipWs ('\n' :: (indentC lvl ++ (rbrace :: rest))) = rbrace :: rest := by
    rw [skipWs_cons_ws _ _ (by decide), skipWs_append_ws _ _ (indentC_wsAll lvl),
      skipWs_not_ws _ _ (by decide)]
  rw [parseObjRest.eq_def]
  simp [h1]
  intro h
  exact absurd h (by decide)

theorem stepD (f : Nat) (ihA : PA f) : PD (f + 1) := by
  intro k v lvl ws rest hk hv hfv hws hnd
  have hkmem : ∀ c ∈ k.data, safeCharB c = true := by
    intro c hc
    exact List.all_eq_true.mp (by simpa [safeStrB] using hk) c hc
  rw [escapeChars_safe k.data hkmem, parseMember.eq_def]
  have h1 : skipWs (ws ++ ('"' :: (k.data ++ '"' :: ':' :: ' ' :: (renderJ lvl v ++ rest)))) =
      '"' :: (k.data ++ '"' :: ':' :: ' ' :: (renderJ lvl v ++ rest)) := by
    rw [skipWs_append_ws _ _ hws]
    exact skipWs_not_ws _ _ (by decide)
  simp only [h1]
  rw [parseStringBody_safe k.data (':' :: ' ' :: (renderJ lvl v ++ rest)) hkmem]
  have h2 : skipWs (':' :: ' ' :: (renderJ lvl v ++ rest)) =
      ':' :: (' ' :: (renderJ lvl v ++ rest)) :=
    skipWs_not_ws _ _ (by decide)
  simp only [Option.bind_eq_bind, Option.some_bind, h2]
  have h3 : (' ' :: (renderJ lvl v ++ rest)) = [' '] ++ (renderJ lvl v ++ rest) := rfl
  rw [h3, ihA v lvl [' '] rest hv (by omega) (by decide) hnd]
  simp [mkData]

theorem wsAll_newline_indent (lvl : Nat) : wsAllB ('\n' :: indentC lvl) = true := by
  simp only [wsAllB, List.all_cons, Bool.and_eq_true]
  exact ⟨by decide, by simpa [wsAllB] using indentC_wsAll lvl⟩

theorem noDigitHead_cons (c : Char) (t : List Char) (h : isDigitC c = false) :
    noDigitHeadB (c :: t) = true := by
  simp [noDigitHeadB, h]

theorem stepB (f : Nat) (ihA : PA f) (ihB : PB f) : PB (f + 1) := by
  intro xs acc lvl rest hne hsafe hfuel
  cases xs with
  | nil => exact absurd rfl hne
  | cons x xs' =>
    simp only [jSafeL, Bool.and_eq_true] at hsafe
    obtain ⟨hx, hxs⟩ := hsafe
    rw [parseArrRest.eq_def]
    simp only [List.cons_append]
    have h1 : skipWs (',' :: ('\n' :: (renderItems (lvl + 1) (x :: xs') ++
        ('\n' :: (indentC lvl ++ (']' :: rest)))))) =
        ',' :: ('\n' :: (renderItems (lvl + 1) (x :: xs') ++
        ('\n' :: (indentC lvl ++ (']' :: rest))))) :=
      skipWs_not_ws _ _ (by decide)
    simp only [h1]
    rw [if_neg (by decide : ¬(',' : Char) = ']'), if_pos trivial]
    cases xs' with
    | nil =>
      have hlen : fuelNeed x ≤ f := by
        simp only [fuelNeedL] at hfuel
        omega
      have hrw : ('\n' :: (renderItems (lvl + 1) [x] ++ ('\n' :: (indentC lvl ++ (']' :: rest))))) =
          ('\n' :: indentC (lvl + 1)) ++
            (renderJ (lvl + 1) x ++ ('\n' :: (indentC lvl ++ (']' :: rest)))) := by
        simp [renderItems, List.append_assoc]
      rw [hrw, ihA x (lvl + 1) ('\n' :: indentC (lvl + 1))
        ('\n' :: (indentC lvl ++ (']' :: rest))) hx hlen
        (wsAll_newline_indent (lvl + 1))
        (noDigitHead_cons _ _ (by decide))]
      simp only [Option.bind_eq_bind, Option.some_bind]
      rcases f with _ | g
      · simp only [fuelNeedL] at hfuel
        omega
      · rw [parseArrRest_close g (x :: acc) lvl rest]
        simp
    | cons y ys =>
      have hlen : fuelNeed x ≤ f := by
        simp only [fuelNeedL] at hfuel
        omega
      simp only [jSafeL, Bool.and_eq_true] at hxs
      have hrw : ('\n' :: (renderItems (lvl + 1) (x :: y :: ys) ++
          ('\n' :: (indentC lvl ++ (']' :: rest))))) =
          ('\n' :: indentC (lvl + 1)) ++
            (renderJ (lvl + 1) x ++
              ((',' :: '\n' :: renderItems (lvl + 1) (y :: ys)) ++
                ('\n' :: (indentC lvl ++ (']' :: rest))))) := by
        simp [renderItems, List.append_assoc]
      rw [hrw, ihA x (lvl + 1) ('\n' :: indentC (lvl + 1))
        ((',' :: '\n' :: renderItems (lvl + 1) (y :: ys)) ++
          ('\n' :: (indentC lvl ++ (']' :: rest)))) hx hlen
        (wsAll_newline_indent (lvl + 1))
        (by rw [List.cons_append]; exact noDigitHead_cons _ _ (by decide))]
      simp only [Option.bind_eq_bind, Option.some_bind]
      rw [ihB (y :: ys) (x :: acc) lvl rest (by simp) (by simp [jSafeL, hxs])
        (by simp only [fuelNeedL] at hfuel ⊢; omega)]
      simp [List.append_assoc]

theorem stepC (f : Nat) (ihD : PD f) (ihC : PC f) : PC (f + 1) := by
  intro kvs acc lvl rest hne hsafe hfuel
  cases kvs with
  | nil => exact absurd rfl hne
  | cons kv kvs' =>
    simp only [jSafeE, Bool.and_eq_true] at hsafe
    obtain ⟨⟨hk, hv⟩, hkvs⟩ := hsafe
    rw [parseObjRest.eq_def]
    simp only [List.cons_append]
    have h1 : skipWs (',' :: ('\n' :: (renderMembers (lvl + 1) (kv :: kvs') ++
        ('\n' :: (indentC lvl ++ (rbrace :: rest)))))) =
        ',' :: ('\n' :: (renderMembers (lvl + 1) (kv :: kvs') ++
        ('\n' :: (indentC lvl ++ (rbrace :: rest))))) :=
      skipWs_not_ws _ _ (by decide)
    simp only [h1]
    rw [if_pos trivial]
    cases kvs' with
    | nil =>
      have hlen : fuelNeed kv.2 + 1 ≤ f := by
        simp only [fuelNeedE] at hfuel
        omega
      have hrw : ('\n' :: (renderMembers (lvl + 1) [kv] ++
          ('\n' :: (indentC lvl ++ (rbrace :: rest))))) =
          ('\n' :: indentC (lvl + 1)) ++
            ('"' :: (escapeChars kv.1.data ++ '"' :: ':' :: ' ' ::
              (renderJ (lvl + 1) kv.2 ++ ('\n' :: (indentC lvl ++ (rbrace :: rest)))))) := by
        simp [renderMembers, List.append_assoc]
      rw [hrw, ihD kv.1 kv.2 (lvl + 1) ('\n' :: indentC (lvl + 1))
        ('\n' :: (indentC lvl ++ (rbrace :: rest))) hk hv hlen
        (wsAll_newline_indent (lvl + 1))
        (noDigitHead_cons _ _ (by decide))]
      simp only [Option.bind_eq_bind, Option.some_bind]
      rcases f with _ | g
      · simp only [fuelNeedE] at hfuel
        omega
      · rw [parseObjRest_close g (kv :: acc) lvl rest]
        simp
    | cons kv2 rest' =>
      have hlen : fuelNeed kv.2 + 1 ≤ f := by
        simp only [fuelNeedE] at hfuel
        omega
      simp only [jSafeE, Bool.and_eq_true] at hkvs
      have hrw : ('\n' :: (renderMembers (lvl + 1) (kv :: kv2 :: rest') ++
          ('\n' :: (indentC lvl ++ (rbrace :: rest))))) =
          ('\n' :: indentC (lvl + 1)) ++
            ('"' :: (escapeChars kv.1.data ++ '"' :: ':' :: ' ' ::
              (renderJ (lvl + 1) kv.2 ++
                ((',' :: '\n' :: renderMembers (lvl + 1) (kv2 :: rest')) ++
                  ('\n' :: (indentC lvl ++ (rbrace :: rest))))))) := by
        simp [renderMembers, List.append_assoc]
      rw [hrw, ihD kv.1 kv.2 (lvl + 1) ('\n' :: indentC (lvl + 1))
        ((',' :: '\n' :: renderMembers (lvl + 1) (kv2 :: rest')) ++
          ('\n' :: (indentC lvl ++ (rbrace :: rest)))) hk hv hlen
        (wsAll_newline_indent (lvl + 1))
        (by rw [List.cons_append]; exact noDigitHead_cons _ _ (by decide))]
      simp only [Option.bind_eq_bind, Option.some_bind]
      rw [ihC (kv2 :: rest') (kv :: acc) lvl rest (by simp)
        (by simp [jSafeE, hkvs])
        (by simp only [fuelNeedE] at hfuel ⊢; omega)]
      simp [List.append_assoc]

theorem noDigitHead_elim (rest : List Char) (h : noDigitHeadB rest = true) :
    rest = [] ∨ ∃ c r', rest = c :: r' ∧ isDigitC c = false := by
  cases rest with
  | nil => exact Or.inl rfl
  | cons c r' =>
    right
    exact ⟨c, r', rfl, by simpa [noDigitHeadB] using h⟩

theorem stepA (f : Nat) (ihA : PA f) (ihB : PB f) (ihC : PC f) (ihD : PD f) : PA (f + 1) := by
  intro j lvl ws rest hsafe hfuel hws hnd
  cases j with
  | null =>
    have h1 : skipWs (ws ++ (renderJ lvl .null ++ rest)) = 'n' :: ('u' :: 'l' :: 'l' :: rest) := by
      rw [skipWs_append_ws _ _ hws]
      simp only [renderJ, List.cons_append, List.nil_append]
      exact skipWs_not_ws _ _ (by decide)
    rw [parseVal.eq_def]
    simp [h1]
  | bool b =>
    cases b with
    | true =>
      have h1 : skipWs (ws ++ (renderJ lvl (.bool true) ++ rest)) =
          't' :: ('r' :: 'u' :: 'e' :: rest) := by
        rw [skipWs_append_ws _ _ hws]
        simp only [renderJ, List.cons_append, List.nil_append]
        exact skipWs_not_ws _ _ (by decide)
      rw [parseVal.eq_def]
      simp [h1]
    | false =>
      have h1 : skipWs (ws ++ (renderJ lvl (.bool false) ++ rest)) =
          'f' :: ('a' :: 'l' :: 's' :: 'e' :: rest) := by
        rw [skipWs_append_ws _ _ hws]
        simp only [renderJ, List.cons_append, List.nil_append]
        exact skipWs_not_ws _ _ (by decide)
      rw [parseVal.eq_def]
      simp [h1]
  | num n =>
    have hndE := noDigitHead_elim rest hnd
    cases n with
    | ofNat m =>
      rcases hd : natDigits m with _ | ⟨c, r'⟩
      · exact absurd hd (natDigits_ne_nil m)
      · have hc : isDigitC c = true := natDigits_all_digits m c (by rw [hd]; simp)
        obtain ⟨hc1, hc2, hc3, hc4, hc5, hc6, hc7, hcws, _, _, _, _⟩ := isDigitC_facts c hc
        have h1 : skipWs (ws ++ (renderJ lvl (.num (Int.ofNat m)) ++ rest)) =
            c :: (r' ++ rest) := by
          rw [skipWs_append_ws _ _ hws]
          simp only [renderJ, intRepr, hd, List.cons_append]
          exact skipWs_not_ws _ _ hcws
        rw [parseVal.eq_def]
        simp only [h1]
        rw [if_neg hc1, if_neg hc2, if_neg hc3, if_neg hc4, if_neg hc5, if_neg hc6,
          if_neg hc7, if_pos hc]
        have h2 : (c :: (r' ++ rest)) = natDigits m ++ rest := by
          rw [hd]
          simp
        rw [h2, parseDigitsAcc_natDigits m rest hndE]
        rfl
    | negSucc m =>
      have h1 : skipWs (ws ++ (renderJ lvl (.num (Int.negSucc m)) ++ rest)) =
          '-' :: (natDigits (m + 1) ++ rest) := by
        rw [skipWs_append_ws _ _ hws]
        simp only [renderJ, intRepr, List.cons_append]
        exact skipWs_not_ws _ _ (by decide)
      rw [parseVal.eq_def]
      simp only [h1]
      rw [if_neg (by decide : ¬('-' : Char) = 'n'), if_neg (by decide : ¬('-' : Char) = 't'),
        if_neg (by decide : ¬('-' : Char) = 'f'), if_neg (by decide : ¬('-' : Char) = '"'),
        if_neg (by decide : ¬('-' : Char) = '['), if_neg (by decide : ¬('-' : Char) = lbrace),
        if_pos trivial]
      rcases hd : natDigits (m + 1) with _ | ⟨c, r'⟩
      · exact absurd hd (natDigits_ne_nil (m + 1))
      · have hc : isDigitC c = true := natDigits_all_digits (m + 1) c (by rw [hd]; simp)
        have hp : parseDigitsAcc 0 ((c :: r') ++ rest) = (m + 1, rest) := by
          rw [← hd]
          exact parseDigitsAcc_natDigits (m + 1) rest hndE
        simp only [List.cons_append] at hp ⊢
        simp only [hc, if_true, hp]
        simp only [Option.some.injEq, Prod.mk.injEq, J.num.injEq, and_true, Int.negSucc_eq]
        omega
  | str s =>
    have hsmem : ∀ c ∈ s.data, safeCharB c = true := by
      intro c hc
      exact List.all_eq_true.mp (by simpa [jSafeB, safeStrB] using hsafe) c hc
    have h1 : skipWs (ws ++ (renderJ lvl (.str s) ++ rest)) =
        '"' :: (escapeChars s.data ++ ('"' :: rest)) := by
      rw [skipWs_append_ws _ _ hws]
      simp only [renderJ, List.cons_append, List.append_assoc, List.singleton_append]
      exact skipWs_not_ws _ _ (by decide)
    rw [parseVal.eq_def]
    simp only [h1]
    rw [if_neg (by decide : ¬('"' : Char) = 'n'), if_neg (by decide : ¬('"' : Char) = 't'),
      if_neg (by decide : ¬('"' : Char) = 'f'), if_pos trivial,
      escapeChars_safe s.data hsmem, parseStringBody_safe s.data rest hsmem]
    simp [mkData]
  | arr xs =>
    cases xs with
    | nil =>
      have h1 : skipWs (ws ++ (renderJ lvl (.arr []) ++ rest)) = '[' :: (']' :: rest) := by
        rw [skipWs_append_ws _ _ hws]
        simp only [renderJ, List.cons_append, List.nil_append]
        exact skipWs_not_ws _ _ (by decide)
      have h2 : skipWs (']' :: rest) = ']' :: rest := skipWs_not_ws _ _ (by decide)
      rw [parseVal.eq_def]
      simp [h1, h2]
    | cons x xs' =>
      simp only [jSafeB, jSafeL, Bool.and_eq_true] at hsafe
      obtain ⟨hxsafe, hxssafe⟩ := hsafe
      simp only [fuelNeed, fuelNeedL] at hfuel
      obtain ⟨c, r', hx_eq, hcws, hcbr, _, _⟩ := renderJ_head (lvl + 1) x
      have h1 : skipWs (ws ++ (renderJ lvl (.arr (x :: xs')) ++ rest)) =
          '[' :: ('\n' :: (renderItems (lvl + 1) (x :: xs') ++
            ('\n' :: (indentC lvl ++ (']' :: rest))))) := by
        rw [skipWs_append_ws _ _ hws]
        simp only [renderJ, List.cons_append, List.append_assoc, List.singleton_append]
        exact skipWs_not_ws _ _ (by decide)
      rw [parseVal.eq_def]
      simp only [h1]
      rw [if_neg (by decide : ¬('[' : Char) = 'n'), if_neg (by decide : ¬('[' : Char) = 't'),
        if_neg (by decide : ¬('[' : Char) = 'f'), if_neg (by decide : ¬('[' : Char) = '"'),
        if_pos trivial]
      cases xs' with
      | nil =>
        have h2 : skipWs ('\n' :: (renderItems (lvl + 1) [x] ++
            ('\n' :: (indentC lvl ++ (']' :: rest))))) =
            c :: (r' ++ ('\n' :: (indentC lvl ++ (']' :: rest)))) := by
          rw [skipWs_cons_ws _ _ (by decide)]
          simp only [renderItems, List.append_assoc]
          rw [skipWs_append_ws _ _ (indentC_wsAll (lvl + 1)), hx_eq, List.cons_append]
          exact skipWs_not_ws _ _ hcws
        simp only [h2]
        rw [if_neg hcbr]
        have h3 : (c :: (r' ++ ('\n' :: (indentC lvl ++ (']' :: rest))))) =
            [] ++ (renderJ (lvl + 1) x ++ ('\n' :: (indentC lvl ++ (']' :: rest)))) := by
          rw [hx_eq]
          simp
        rw [h3, ihA x (lvl + 1) [] ('\n' :: (indentC lvl ++ (']' :: rest))) hxsafe
          (by omega) (by rfl) (noDigitHead_cons _ _ (by decide))]
        simp only [Option.bind_eq_bind, Option.some_bind]
        rcases f with _ | g
        · simp only [fuelNeedL] at hfuel
          omega
        · rw [parseArrRest_close g [x] lvl rest]
          simp
      | cons y ys =>
        have h2 : skipWs ('\n' :: (renderItems (lvl + 1) (x :: y :: ys) ++
            ('\n' :: (indentC lvl ++ (']' :: rest))))) =
            c :: (r' ++ ((',' :: '\n' :: renderItems (lvl + 1) (y :: ys)) ++
              ('\n' :: (indentC lvl ++ (']' :: rest))))) := by
          rw [skipWs_cons_ws _ _ (by decide)]
          simp only [renderItems, List.append_assoc, List.cons_append]
          rw [skipWs_append_ws _ _ (indentC_wsAll (lvl + 1)), hx_eq, List.cons_append]
          rw [skipWs_not_ws _ _ hcws]
        simp only [h2]
        rw [if_neg hcbr]
        have h3 : (c :: (r' ++ ((',' :: '\n' :: renderItems (lvl + 1) (y :: ys)) ++
            ('\n' :: (indentC lvl ++ (']' :: rest)))))) =
            [] ++ (renderJ (lvl + 1) x ++ ((',' :: '\n' :: renderItems (lvl + 1) (y :: ys)) ++
              ('\n' :: (indentC lvl ++ (']' :: rest))))) := by
          rw [hx_eq]
          simp
        simp only [jSafeL, Bool.and_eq_true] at hxssafe
        rw [h3, ihA x (lvl + 1) []
          ((',' :: '\n' :: renderItems (lvl + 1) (y :: ys)) ++
            ('\n' :: (indentC lvl ++ (']' :: rest)))) hxsafe
          (by simp only [fuelNeedL] at hfuel; omega) (by rfl)
          (by rw [List.cons_append]; exact noDigitHead_cons _ _ (by decide))]
        simp only [Option.bind_eq_bind, Option.some_bind]
        rw [ihB (y :: ys) [x] lvl rest (by simp) (by simp [jSafeL, hxssafe])
          (by simp only [fuelNeedL] at hfuel ⊢; omega)]
        simp
  | obj kvs =>
    cases kvs with
    | nil =>
      have h1 : skipWs (ws ++ (renderJ lvl (.obj []) ++ rest)) = lbrace :: (rbrace :: rest) := by
        rw [skipWs_append_ws _ _ hws]
        simp only [renderJ, List.cons_append, List.nil_append]
        exact skipWs_not_ws _ _ (by decide)
      have h2 : skipWs (rbrace :: rest) = rbrace :: rest := skipWs_not_ws _ _ (by decide)
      rw [parseVal.eq_def]
      simp only [h1]
      rw [if_neg (by decide : ¬lbrace = 'n'), if_neg (by decide : ¬lbrace = 't'),
        if_neg (by decide : ¬lbrace = 'f'), if_neg (by decide : ¬lbrace = '"'),
        if_neg (by decide : ¬lbrace = '['), if_pos trivial]
      simp [h2]
    | cons kv kvs' =>
      simp only [jSafeB, jSafeE, Bool.and_eq_true] at hsafe
      obtain ⟨⟨hksafe, hvsafe⟩, hkvssafe⟩ := hsafe
      simp only [fuelNeed, fuelNeedE] at hfuel
      have h1 : skipWs (ws ++ (renderJ lvl (.obj (kv :: kvs')) ++ rest)) =
          lbrace :: ('\n' :: (renderMembers (lvl + 1) (kv :: kvs') ++
            ('\n' :: (indentC lvl ++ (rbrace :: rest))))) := by
        rw [skipWs_append_ws _ _ hws]
        simp only [renderJ, List.cons_append, List.append_assoc, List.singleton_append]
        exact skipWs_not_ws _ _ (by decide)
      rw [parseVal.eq_def]
      simp only [h1]
      rw [if_neg (by decide : ¬lbrace = 'n'), if_neg (by decide : ¬lbrace = 't'),
        if_neg (by decide : ¬lbrace = 'f'), if_neg (by decide : ¬lbrace = '"'),
        if_neg (by decide : ¬lbrace = '['), if_pos trivial]
      cases kvs' with
      | nil =>
        have h2 : skipWs ('\n' :: (renderMembers (lvl + 1) [kv] ++
            ('\n' :: (indentC lvl ++ (rbrace :: rest))))) =
            '"' :: (escapeChars kv.1.data ++ '"' :: ':' :: ' ' ::
              (renderJ (lvl + 1) kv.2 ++ ('\n' :: (indentC lvl ++ (rbrace :: rest))))) := by
          rw [skipWs_cons_ws _ _ (by decide)]
          simp only [renderMembers, List.append_assoc, List.cons_append]
          rw [skipWs_append_ws _ _ (indentC_wsAll (lvl + 1))]
          rw [skipWs_not_ws _ _ (by decide)]
        simp only [h2]
        rw [if_neg (by decide : ¬('"' : Char) = rbrace)]
        have hm := ihD kv.1 kv.2 (lvl + 1) []
          ('\n' :: (indentC lvl ++ (rbrace :: rest))) hksafe hvsafe
          (by omega) (by rfl) (noDigitHead_cons _ _ (by decide))
        simp only [List.nil_append] at hm
        rw [hm]
        simp only [Option.bind_eq_bind, Option.some_bind]
        rcases f with _ | g
        · simp only [fuelNeedE] at hfuel
          omega
        · rw [parseObjRest_close g [kv] lvl rest]
          simp
      | cons kv2 rest' =>
        have h2 : skipWs ('\n' :: (renderMembers (lvl + 1) (kv :: kv2 :: rest') ++
            ('\n' :: (indentC lvl ++ (rbrace :: rest))))) =
            '"' :: (escapeChars kv.1.data ++ '"' :: ':' :: ' ' ::
              (renderJ (lvl + 1) kv.2 ++
                ((',' :: '\n' :: renderMembers (lvl + 1) (kv2 :: rest')) ++
                  ('\n' :: (indentC lvl ++ (rbrace :: rest)))))) := by
          rw [skipWs_cons_ws _ _ (by decide)]
          simp only [renderMembers, List.append_assoc, List.cons_append]
          rw [skipWs_append_ws _ _ (indentC_wsAll (lvl + 1))]
          rw [skipWs_not_ws _ _ (by decide)]
        simp only [h2]
        rw [if_neg (by decide : ¬('"' : Char) = rbrace)]
        have hm := ihD kv.1 kv.2 (lvl + 1) []
          ((',' :: '\n' :: renderMembers (lvl + 1) (kv2 :: rest')) ++
            ('\n' :: (indentC lvl ++ (rbrace :: rest)))) hksafe hvsafe
          (by omega) (by rfl)
          (by rw [List.cons_append]; exact noDigitHead_cons _ _ (by decide))
        simp only [List.nil_append] at hm
        rw [hm]
        simp only [Option.bind_eq_bind, Option.some_bind]
        simp only [jSafeE, Bool.and_eq_true] at hkvssafe
        rw [ihC (kv2 :: rest') [kv] lvl rest (by simp) (by simp [jSafeE, hkvssafe])
          (by simp only [fuelNeedE] at hfuel ⊢; omega)]
        simp

theorem parserRound : ∀ f, PA f ∧ PB f ∧ PC f ∧ PD f := by
  intro f
  induction f with
  | zero =>
    refine ⟨?_, ?_, ?_, ?_⟩
    · intro j lvl ws rest _ hfuel _ _
      have := fuelNeed_pos j
      omega
    · intro xs acc lvl rest _ _ hfuel
      omega
    · intro kvs acc lvl rest _ _ hfuel
      omega
    · intro k v lvl ws rest _ _ hfv _ _
      omega
  | succ f ih =>
    obtain ⟨ihA, ihB, ihC, ihD⟩ := ih
    exact ⟨stepA f ihA ihB ihC ihD, stepB f ihA ihB, stepC f ihD ihC, stepD f ihA⟩

/-- Parsing the rendered text of a safe JSON tree restores the tree. -/
theorem jsonParse_renderJ (j : J) (h : jSafeB j = true) :
    jsonParse (renderJ 0 j) = some j := by
  unfold jsonParse
  have hfuel : fuelNeed j ≤ 2 * (renderJ 0 j).length + 2 := by
    have := fuelNeed_le_len j 0
    omega
  have hA := (parserRound (2 * (renderJ 0 j).length + 2)).1 j 0 [] [] h hfuel rfl rfl
  simp only [List.nil_append, List.append_nil] at hA
  rw [hA]
  rfl

/-! ## The decode hook inverts the encoder's value normalization -/

theorem fromJList_nums (qt : Bool) : ∀ es : List Int,
    fromJList qt (es.map J.num) = .ok (es.map PyObj.int) := by
  intro es
  induction es with
  | nil => rfl
  | cons e es ih =>
    simp only [List.map_cons, fromJList, fromJ, ih]
    rfl

theorem jSafeL_nums : ∀ es : List Int, jSafeL (es.map J.num) = true := by
  intro es
  induction es with
  | nil => rfl
  | cons e es ih => simp [jSafeL, jSafeB, ih]

theorem shapeList_of_nats : ∀ shape : List Nat,
    shapeList (shape.map (fun n => PyObj.int (Int.ofNat n))) = some shape := by
  intro shape
  induction shape with
  | nil => rfl
  | cons n rest ih =>
    simp only [List.map_cons, shapeList, ih]
    rw [if_pos (by simp [Int.ofNat_eq_coe])]
    simp [Int.ofNat_eq_coe]

theorem digit_safeCharB (c : Char) (h : isDigitC c = true) : safeCharB c = true := by
  simp only [isDigitC, Bool.and_eq_true, decide_eq_true_eq] at h
  have h1 : c ≠ '"' := char_ne_of_toNat_ne _ _ (by have : ('"').toNat = 34 := rfl; omega)
  have h2 : c ≠ '\\' := char_ne_of_toNat_ne _ _ (by have : ('\\').toNat = 92 := rfl; omega)
  simp only [safeCharB, Bool.and_eq_true, decide_eq_true_eq, bne_iff_ne, ne_eq]
  refine ⟨⟨⟨by omega, by omega⟩, ?_⟩, ?_⟩ <;> simp [h1, h2]

theorem safeStrB_mk_of_all (l : List Char) (h : ∀ c ∈ l, safeCharB c = true) :
    safeStrB (String.mk l) = true := by
  simp only [safeStrB, List.all_eq_true]
  exact h

theorem safeStr_b64 (bs : List Nat) : safeStrB (String.mk (b64EncodeBytes bs)) = true :=
  safeStrB_mk_of_all _ (b64EncodeBytes_all_safe bs)

theorem intRepr_safe (n : Int) : safeStrB (String.mk (intRepr n)) = true := by
  apply safeStrB_mk_of_all
  intro c hc
  cases n with
  | ofNat m => exact digit_safeCharB c (natDigits_all_digits m c hc)
  | negSucc m =>
    simp only [intRepr, List.mem_cons] at hc
    rcases hc with hc | hc
    · rw [hc]
      decide
    · exact digit_safeCharB c (natDigits_all_digits (m + 1) c hc)

theorem keyStr_safe (k : PyKey) (h : pyKeySafeB k = true) : safeStrB (keyStr k) = true := by
  cases k with
  | int n => exact intRepr_safe n
  | str s =>
    simp only [pyKeySafeB, Bool.and_eq_true] at h
    exact h.1.1

theorem string_mk_inj (l1 l2 : List Char) (h : String.mk l1 = String.mk l2) : l1 = l2 := by
  have : (String.mk l1).data = (String.mk l2).data := by rw [h]
  simpa using this

theorem intRepr_head (n : Int) : ∃ c r', intRepr n = c :: r' ∧ (isDigitC c = true ∨ c = '-') := by
  cases n with
  | ofNat m =>
    rcases hd : natDigits m with _ | ⟨c, r'⟩
    · exact absurd hd (natDigits_ne_nil m)
    · exact ⟨c, r', by simp [intRepr, hd],
        Or.inl (natDigits_all_digits m c (by rw [hd]; simp))⟩
  | negSucc m => exact ⟨'-', _, rfl, Or.inr rfl⟩

theorem keyStr_ne_tags (k : PyKey) (h : pyKeySafeB k = true) :
    keyStr k ≠ tagNd ∧ keyStr k ≠ tagQb := by
  cases k with
  | str s =>
    simp only [pyKeySafeB, Bool.and_eq_true, decide_eq_true_eq, bne_iff_ne, ne_eq] at h
    obtain ⟨⟨_, h1⟩, h2⟩ := h
    exact ⟨by simpa [keyStr] using h1, by simpa [keyStr] using h2⟩
  | int n =>
    obtain ⟨c, r', hrep, hc⟩ := intRepr_head n
    constructor <;>
    · intro he
      have hdata := string_mk_inj _ _ (by simpa [keyStr, tagNd, tagQb] using he)
      rw [hrep] at hdata
      have : c = '_' := by
        have := congrArg (fun l => l.headD ' ') hdata
        simpa using this
      rcases hc with hd | hd
      · rw [this] at hd
        revert hd
        decide
      · rw [this] at hd
        revert hd
        decide

theorem lookup_none_of (a : String) (d : List (String × PyObj))
    (h : ∀ p ∈ d, p.1 ≠ a) : List.lookup a d = none := by
  induction d with
  | nil => rfl
  | cons p rest ih =>
    have hne : (a == p.1) = false := by
      simp only [beq_eq_false_iff_ne, ne_eq]
      intro he
      exact h p (by simp) he.symm
    rcases p with ⟨k, v⟩
    simp only [List.lookup, hne]
    exact ih (fun q hq => h q (by simp [hq]))

theorem insertAssoc_notmem {κ β : Type} [DecidableEq κ] (k : κ) (v : β)
    (acc : List (κ × β)) (h : k ∉ acc.map Prod.fst) :
    insertAssoc k v acc = acc ++ [(k, v)] := by
  induction acc with
  | nil => rfl
  | cons p rest ih =>
    simp only [List.map_cons, List.mem_cons] at h
    push_neg at h
    simp only [insertAssoc]
    rw [if_neg (by exact fun he => h.1 he.symm), ih h.2]
    rfl

theorem foldl_insertAssoc_nodup_aux {κ β : Type} [DecidableEq κ] :
    ∀ (M acc : List (κ × β)), ((acc ++ M).map Prod.fst).Nodup →
    M.foldl (fun out kv => insertAssoc kv.1 kv.2 out) acc = acc ++ M := by
  intro M
  induction M with
  | nil =>
    intro acc _
    simp
  | cons p rest ih =>
    intro acc hnd
    simp only [List.foldl_cons]
    have hmem : p.1 ∉ acc.map Prod.fst := by
      simp only [List.map_append, List.map_cons] at hnd
      intro hm
      have := (List.nodup_append.mp hnd).2.2
      exact this hm (by simp)
    rw [insertAssoc_notmem p.1 p.2 acc hmem]
    have := ih (acc ++ [p]) (by simpa using hnd)
    rw [this]
    simp

theorem foldl_insertAssoc_nodup {κ β : Type} [DecidableEq κ] (M : List (κ × β))
    (hnd : (M.map Prod.fst).Nodup) :
    M.foldl (fun out kv => insertAssoc kv.1 kv.2 out) [] = M := by
  have := foldl_insertAssoc_nodup_aux M [] (by simpa using hnd)
  simpa using this

theorem insSorted_forall₂ {A B : Type} (R : A → B → Prop) (le1 : A → A → Bool)
    (le2 : B → B → Bool) (hle : ∀ a b a' b', R a b → R a' b' → le1 a a' = le2 b b')
    (x : A) (y : B) (hxy : R x y) :
    ∀ (l1 : List A) (l2 : List B), List.Forall₂ R l1 l2 →
    List.Forall₂ R (insSorted le1 x l1) (insSorted le2 y l2) := by
  intro l1 l2 h
  induction h with
  | nil => exact List.Forall₂.cons hxy List.Forall₂.nil
  | cons hab htail ih =>
    rename_i a b l1' l2'
    have hcond : le1 x a = le2 y b := hle _ _ _ _ hxy hab
    by_cases hc : le1 x a = true
    · simp only [insSorted, hc, hcond ▸ hc, if_true, ite_true]
      exact List.Forall₂.cons hxy (List.Forall₂.cons hab htail)
    · have hc2 : le2 y b = false := by
        rw [← hcond]
        exact Bool.not_eq_true _ ▸ (by simpa using hc)
      simp only [insSorted, hc, hc2, if_false, Bool.false_eq_true, ite_false]
      exact List.Forall₂.cons hab ih

theorem isortBy_forall₂ {A B : Type} (R : A → B → Prop) (le1 : A → A → Bool)
    (le2 : B → B → Bool) (hle : ∀ a b a' b', R a b → R a' b' → le1 a a' = le2 b b') :
    ∀ (l1 : List A) (l2 : List B), List.Forall₂ R l1 l2 →
    List.Forall₂ R (isortBy le1 l1) (isortBy le2 l2) := by
  intro l1 l2 h
  induction h with
  | nil => exact List.Forall₂.nil
  | cons hab htail ih =>
    exact insSorted_forall₂ R le1 le2 hle _ _ hab _ _ ih

theorem forall₂_fst_eq : ∀ {L : List (PyKey × J)} {E : List (PyKey × PyObj)},
    List.Forall₂ RelEJ L E → L.map Prod.fst = E.map Prod.fst := by
  intro L E h
  induction h with
  | nil => rfl
  | cons hab _ ih =>
    simp only [List.map_cons, ih, hab.1]

theorem keys_safe_of_rel : ∀ {L : List (PyKey × J)} {E : List (PyKey × PyObj)},
    List.Forall₂ RelEJ L E → ∀ kv ∈ E, pyKeySafeB kv.1 = true := by
  intro L E h
  induction h with
  | nil => intro kv hkv; simp at hkv
  | cons hab _ ih =>
    intro kv hkv
    rcases List.mem_cons.mp hkv with hkv | hkv
    · subst hkv
      exact hab.1 ▸ hab.2.1
    · exact ih kv hkv

theorem jSafeE_of_rel : ∀ {L : List (PyKey × J)} {E : List (PyKey × PyObj)},
    List.Forall₂ RelEJ L E → jSafeE (L.map (fun e => (keyStr e.1, e.2))) = true := by
  intro L E h
  induction h with
  | nil => rfl
  | cons hab _ ih =>
    obtain ⟨_, hks, hjs, _⟩ := hab
    simp only [List.map_cons, jSafeE, Bool.and_eq_true]
    exact ⟨⟨keyStr_safe _ hks, hjs⟩, ih⟩

theorem fromJEntries_of_rel : ∀ {L : List (PyKey × J)} {E : List (PyKey × PyObj)},
    List.Forall₂ RelEJ L E →
    fromJEntries true (L.map (fun e => (keyStr e.1, e.2))) =
      .ok (E.map (fun kv => (keyStr kv.1, kv.2))) := by
  intro L E h
  induction h with
  | nil => rfl
  | cons hab _ ih =>
    obtain ⟨hk, _, _, hfj⟩ := hab
    simp only [List.map_cons, fromJEntries, hfj, ih, hk]
    rfl

theorem expectedEntries_fst : ∀ kvs : List (PyKey × PyObj),
    (expectedEntries kvs).map Prod.fst = kvs.map Prod.fst := by
  intro kvs
  induction kvs with
  | nil => rfl
  | cons kv rest ih => simp [expectedEntries, ih]

theorem b64EncodeBytes_toNat_lt (bs : List Nat) :
    ∀ c ∈ b64EncodeBytes bs, c.toNat < 256 := by
  intro c hc
  have := b64EncodeBytes_all_safe bs c hc
  simp only [safeCharB, Bool.and_eq_true, decide_eq_true_eq] at this
  omega

theorem map_ofNat_toNat (l : List Char) : (l.map Char.toNat).map Char.ofNat = l := by
  induction l with
  | nil => rfl
  | cons c rest ih => simp [ih, Char.ofNat_toNat]

theorem data_mk (l : List Char) : (String.mk l).data = l := rfl

theorem fromJList_shape (qt : Bool) (shape : List Nat) :
    fromJList qt (shape.map (fun n => J.num (Int.ofNat n))) =
      .ok (shape.map (fun n => PyObj.int (Int.ofNat n))) := by
  have := fromJList_nums qt (shape.map Int.ofNat)
  simpa [List.map_map, Function.comp] using this

theorem ok_bind {α β : Type} (x : α) (f : α → Except Err β) :
    (Except.ok x >>= f) = f x := rfl

theorem jSafeL_shape (shape : List Nat) :
    jSafeL (shape.map (fun n => J.num (Int.ofNat n))) = true := by
  simpa [List.map_map, Function.comp] using jSafeL_nums (shape.map Int.ofNat)

theorem dtypeName_safe (dt : Dtype) : safeStrB dt.name = true := by
  cases dt <;> decide

mutual

theorem normFromJ : ∀ v : PyObj, encodableB v = true →
    ∃ j, normalizeVal v = .ok j ∧ jSafeB j = true ∧ fromJ true j = .ok (expectedValue v)
  | .none, _ => ⟨.null, rfl, rfl, rfl⟩
  | .bool b, _ => ⟨.bool b, rfl, rfl, rfl⟩
  | .int n, _ => ⟨.num n, rfl, rfl, rfl⟩
  | .str s, h => ⟨.str s, rfl, by simpa [jSafeB, encodableB] using h, rfl⟩
  | .list xs, h => by
    obtain ⟨js, hn, hs, hf⟩ := normFromJList xs (by simpa [encodableB] using h)
    refine ⟨.arr js, by simp only [normalizeVal, hn, ok_bind], by simpa [jSafeB] using hs, ?_⟩
    simp only [fromJ, hf, ok_bind, expectedValue]
  | .dict kvs, h => by
    simp only [encodableB, Bool.and_eq_true, decide_eq_true_eq] at h
    obtain ⟨⟨hhomog, hnodup⟩, hentries⟩ := h
    obtain ⟨es, hn, hF⟩ := normFromJEntries kvs hentries
    have hle : ∀ (a : PyKey × J) (b : PyKey × PyObj) (a' : PyKey × J) (b' : PyKey × PyObj),
        RelEJ a b → RelEJ a' b' → entryLeB a a' = entryKeyLeB b b' := by
      intro a b a' b' hab hab'
      simp only [entryLeB, entryKeyLeB, hab.1, hab'.1]
    have hsorted := isortBy_forall₂ RelEJ entryLeB entryKeyLeB hle es (expectedEntries kvs) hF
    refine ⟨.obj ((isortBy entryLeB es).map (fun e => (keyStr e.1, e.2))), ?_, ?_, ?_⟩
    · simp only [normalizeVal, hn, ok_bind, hhomog, if_true, ite_true]
    · simpa [jSafeB] using jSafeE_of_rel hsorted
    · have hMkeys : ((isortBy entryKeyLeB (expectedEntries kvs)).map
          (fun kv => (keyStr kv.1, kv.2))).map Prod.fst =
          (isortBy entryKeyLeB (expectedEntries kvs)).map (fun kv => keyStr kv.1) := by
        simp [List.map_map, Function.comp]
      have hperm : ((isortBy entryKeyLeB (expectedEntries kvs)).map
          (fun kv => keyStr kv.1)).Perm (kvs.map (fun kv => keyStr kv.1)) := by
        have hp : (isortBy entryKeyLeB (expectedEntries kvs)).Perm (expectedEntries kvs) :=
          isortBy_perm _ _
        have h2 := hp.map (fun kv => keyStr kv.1)
        have h3 : (expectedEntries kvs).map (fun kv => keyStr kv.1) =
            kvs.map (fun kv => keyStr kv.1) := by
          have := expectedEntries_fst kvs
          have e1 : (expectedEntries kvs).map (fun kv => keyStr kv.1) =
              ((expectedEntries kvs).map Prod.fst).map keyStr := by
            simp [List.map_map, Function.comp]
          have e2 : kvs.map (fun kv => keyStr kv.1) = (kvs.map Prod.fst).map keyStr := by
            simp [List.map_map, Function.comp]
          rw [e1, e2, this]
        exact h3 ▸ h2
      have hnodupM : (((isortBy entryKeyLeB (expectedEntries kvs)).map
          (fun kv => (keyStr kv.1, kv.2))).map Prod.fst).Nodup := by
        rw [hMkeys]
        exact hperm.nodup_iff.mpr hnodup
      have hktags : ∀ p ∈ (isortBy entryKeyLeB (expectedEntries kvs)).map
          (fun kv => (keyStr kv.1, kv.2)), p.1 ≠ tagNd ∧ p.1 ≠ tagQb := by
        intro p hp
        simp only [List.mem_map] at hp
        obtain ⟨kv, hkv, hpeq⟩ := hp
        have hmem : kv ∈ expectedEntries kvs := (isortBy_perm _ _).subset hkv
        have hsafe := keys_safe_of_rel hsorted kv ((isortBy_perm _ _).symm.subset hmem)
        rw [← hpeq]
        exact keyStr_ne_tags kv.1 hsafe
      simp only [fromJ, fromJEntries_of_rel hsorted, ok_bind]
      rw [foldl_insertAssoc_nodup _ hnodupM]
      rw [_json_custom_hook]
      rw [lookup_none_of tagNd _ (fun p hp => (hktags p hp).1),
        lookup_none_of tagQb _ (fun p hp => (hktags p hp).2)]
      simp only [Option.isSome_none, Bool.false_eq_true, if_false, ite_false]
      simp [expectedValue, List.map_map, Function.comp]
  | .ndarray dt shape elems, h => by
    simp only [encodableB, Bool.and_eq_true, decide_eq_true_eq, List.all_eq_true] at h
    obtain ⟨hlen, hrange⟩ := h
    by_cases hsmall : (shape.length = 1 && decide (shape.headD 0 ≤ 10)) = true
    · refine ⟨.arr (elems.map J.num), ?_, ?_, ?_⟩
      · simp only [normalizeVal, hsmall, if_true, ite_true]
      · simpa [jSafeB] using jSafeL_nums elems
      · simp only [fromJ, fromJList_nums, ok_bind, expectedValue, hsmall, if_true, ite_true]
    · refine ⟨.obj [(tagNd, .str (String.mk (b64EncodeBytes (elemsBytes dt elems)))),
        ("dtype", .str dt.name),
        ("shape", .arr (shape.map (fun n => J.num (Int.ofNat n))))], ?_, ?_, ?_⟩
      · have hsmall2 : (decide (shape.length = 1) && decide (shape.headD 0 ≤ 10)) = false := by
          simpa using hsmall
        simp only [normalizeVal, hsmall2, Bool.false_eq_true, if_false, ite_false]
      · simp only [jSafeB, jSafeE, safeStr_b64, dtypeName_safe, jSafeL_shape,
          Bool.and_true, Bool.true_and]
        decide
      · have hent : fromJEntries true
            [(tagNd, .str (String.mk (b64EncodeBytes (elemsBytes dt elems)))),
              ("dtype", .str dt.name),
              ("shape", .arr (shape.map (fun n => J.num (Int.ofNat n))))] =
            .ok [(tagNd, .str (String.mk (b64EncodeBytes (elemsBytes dt elems)))),
              ("dtype", .str dt.name),
              ("shape", .list (shape.map (fun n => PyObj.int (Int.ofNat n))))] := by
          simp only [fromJEntries, fromJ, fromJList_shape, ok_bind]
        simp only [fromJ, hent, ok_bind]
        have hfold : List.foldl (fun out kv => insertAssoc kv.1 kv.2 out) []
            [(tagNd, PyObj.str (String.mk (b64EncodeBytes (elemsBytes dt elems)))),
              ("dtype", PyObj.str dt.name),
              ("shape", PyObj.list (shape.map (fun n => PyObj.int (Int.ofNat n))))] =
            [(tagNd, PyObj.str (String.mk (b64EncodeBytes (elemsBytes dt elems)))),
              ("dtype", PyObj.str dt.name),
              ("shape", PyObj.list (shape.map (fun n => PyObj.int (Int.ofNat n))))] := rfl
        rw [hfold]
        rw [_json_custom_hook]
        have hl1 : List.lookup tagNd
            [(tagNd, PyObj.str (String.mk (b64EncodeBytes (elemsBytes dt elems)))),
              ("dtype", PyObj.str dt.name),
              ("shape", PyObj.list (shape.map (fun n => PyObj.int (Int.ofNat n))))] =
            some (PyObj.str (String.mk (b64EncodeBytes (elemsBytes dt elems)))) := by
          simp [List.lookup]
        rw [hl1]
        simp only [Option.isSome_some, if_true, ite_true]
        have hl2 : List.lookup "dtype"
            [(tagNd, PyObj.str (String.mk (b64EncodeBytes (elemsBytes dt elems)))),
              ("dtype", PyObj.str dt.name),
              ("shape", PyObj.list (shape.map (fun n => PyObj.int (Int.ofNat n))))] =
            some (PyObj.str dt.name) := by
          simp [List.lookup, tagNd]
        have hl3 : List.lookup "shape"
            [(tagNd, PyObj.str (String.mk (b64EncodeBytes (elemsBytes dt elems)))),
              ("dtype", PyObj.str dt.name),
              ("shape", PyObj.list (shape.map (fun n => PyObj.int (Int.ofNat n))))] =
            some (PyObj.list (shape.map (fun n => PyObj.int (Int.ofNat n)))) := by
          simp [List.lookup, tagNd]
        simp only [b64_roundtrip _ (elemsBytes_lt_256 dt elems), hl2, Dtype.ofName_name,
          bytesToElems_elemsBytes dt elems hrange, hl3, shapeList_of_nats]
        rw [if_pos hlen.symm]
        have hsmall2 : (decide (shape.length = 1) && decide (shape.headD 0 ≤ 10)) = false := by
          simpa using hsmall
        simp only [expectedValue, hsmall2, Bool.false_eq_true, if_false, ite_false]
  | .qbytearray bs, h => by
    simp only [encodableB, List.all_eq_true, decide_eq_true_eq] at h
    refine ⟨.obj [(tagQb, .str (String.mk (_encode_qbytearray bs)))], rfl, ?_, ?_⟩
    · have : safeStrB (String.mk (_encode_qbytearray bs)) = true := by
        unfold _encode_qbytearray
        exact safeStr_b64 _
      simp [jSafeB, jSafeE, this]
      decide
    · have hent : fromJEntries true [(tagQb, .str (String.mk (_encode_qbytearray bs)))] =
          .ok [(tagQb, .str (String.mk (_encode_qbytearray bs)))] := rfl
      simp only [fromJ, hent, ok_bind]
      have hfold : List.foldl (fun out kv => insertAssoc kv.1 kv.2 out) []
          [(tagQb, PyObj.str (String.mk (_encode_qbytearray bs)))] =
          [(tagQb, PyObj.str (String.mk (_encode_qbytearray bs)))] := rfl
      rw [hfold]
      rw [_json_custom_hook]
      have hl1 : List.lookup tagNd [(tagQb, PyObj.str (String.mk (_encode_qbytearray bs)))] =
          none := by
        simp [List.lookup, tagNd, tagQb]
      have hl2 : List.lookup tagQb [(tagQb, PyObj.str (String.mk (_encode_qbytearray bs)))] =
          some (PyObj.str (String.mk (_encode_qbytearray bs))) := by
        simp [List.lookup]
      rw [hl1]
      simp only [Option.isSome_none, Bool.false_eq_true, if_false, ite_false]
      rw [hl2]
      simp only [Option.isSome_some, if_true, ite_true]
      unfold _decode_qbytearray
      rw [data_mk]
      unfold _encode_qbytearray
      have hYlt : ∀ y ∈ (b64EncodeBytes bs).map Char.toNat, y < 256 := by
        intro y hy
        simp only [List.mem_map] at hy
        obtain ⟨c, hc, hyeq⟩ := hy
        rw [← hyeq]
        exact b64EncodeBytes_toNat_lt bs c hc
      rw [b64_roundtrip _ hYlt]
      simp only [if_true, ite_true]
      unfold qbaFromBase64
      rw [map_ofNat_toNat, b64_roundtrip bs h]
      rfl

theorem normFromJList : ∀ xs : List PyObj, encodableListB xs = true →
    ∃ js, normalizeList xs = .ok js ∧ jSafeL js = true ∧
      fromJList true js = .ok (expectedList xs)
  | [], _ => ⟨[], rfl, rfl, rfl⟩
  | x :: xs, h => by
    simp only [encodableListB, Bool.and_eq_true] at h
    obtain ⟨j, hn1, hs1, hf1⟩ := normFromJ x h.1
    obtain ⟨js, hn2, hs2, hf2⟩ := normFromJList xs h.2
    refine ⟨j :: js, by simp only [normalizeList, hn1, hn2, ok_bind],
      by simp [jSafeL, hs1, hs2], ?_⟩
    simp only [fromJList, hf1, hf2, ok_bind, expectedList]

theorem normFromJEntries : ∀ kvs : List (PyKey × PyObj), encodableEntriesB kvs = true →
    ∃ es, normalizeEntries kvs = .ok es ∧ List.Forall₂ RelEJ es (expectedEntries kvs)
  | [], _ => ⟨[], rfl, List.Forall₂.nil⟩
  | kv :: rest, h => by
    simp only [encodableEntriesB, Bool.and_eq_true] at h
    obtain ⟨⟨hk, hv⟩, hrest⟩ := h
    obtain ⟨j, hn1, hs1, hf1⟩ := normFromJ kv.2 hv
    obtain ⟨es, hn2, hF⟩ := normFromJEntries rest hrest
    exact ⟨(kv.1, j) :: es, by simp only [normalizeEntries, hn1, hn2, ok_bind],
      List.Forall₂.cons ⟨rfl, hk, hs1, hf1⟩ hF⟩

end

theorem stringifyKey_eq (k : PyKey) : stringifyKey k = .str (keyStr k) := by
  cases k <;> simp [stringifyKey, _is_integer, keyStr]

theorem foldl_insert_keymap {β : Type} (f : PyKey → PyKey) (kvs : List (PyKey × β))
    (hnd : (kvs.map (fun kv => f kv.1)).Nodup) :
    kvs.foldl (fun out kv => insertAssoc (f kv.1) kv.2 out) [] =
      kvs.map (fun kv => (f kv.1, kv.2)) := by
  have h1 : kvs.foldl (fun out kv => insertAssoc (f kv.1) kv.2 out) [] =
      (kvs.map (fun kv => (f kv.1, kv.2))).foldl
        (fun out kv => insertAssoc kv.1 kv.2 out) [] := by
    rw [List.foldl_map]
  rw [h1]
  apply foldl_insertAssoc_nodup
  simpa [List.map_map, Function.comp] using hnd

theorem keysHomogB_stringified (kvs : List (PyKey × PyObj)) :
    keysHomogB (stringifiedEntries kvs) = true := by
  simp only [keysHomogB, Bool.or_eq_true, stringifiedEntries]
  right
  simp only [List.all_map, List.all_eq_true]
  intro kv _
  rfl

theorem nodup_keyStr_of_intified (kvs : List (PyKey × PyObj))
    (h : (kvs.map (fun kv => intifyKey (.str (keyStr kv.1)))).Nodup) :
    (kvs.map (fun kv => keyStr kv.1)).Nodup := by
  have h2 : kvs.map (fun kv => intifyKey (.str (keyStr kv.1))) =
      (kvs.map (fun kv => keyStr kv.1)).map (fun s => intifyKey (.str s)) := by
    simp [List.map_map, Function.comp]
  rw [h2] at h
  exact List.Nodup.of_map _ h

theorem encodableEntriesB_stringified : ∀ kvs : List (PyKey × PyObj),
    (∀ kv ∈ kvs, pyKeySafeB kv.1 = true ∧ encodableB kv.2 = true) →
    encodableEntriesB (kvs.map (fun kv => (PyKey.str (keyStr kv.1), kv.2))) = true := by
  intro kvs
  induction kvs with
  | nil => intro _; rfl
  | cons kv rest ih =>
    intro hall
    obtain ⟨hk, hv⟩ := hall kv (by simp)
    obtain ⟨hne1, hne2⟩ := keyStr_ne_tags kv.1 hk
    simp only [List.map_cons, encodableEntriesB, Bool.and_eq_true]
    refine ⟨⟨?_, hv⟩, ih (fun x hx => hall x (by simp [hx]))⟩
    simp only [pyKeySafeB, Bool.and_eq_true, bne_iff_ne, ne_eq, decide_eq_true_eq]
    exact ⟨⟨keyStr_safe kv.1 hk, hne1⟩, hne2⟩

theorem encodableB_stringified (kvs : List (PyKey × PyObj))
    (hall : ∀ kv ∈ kvs, pyKeySafeB kv.1 = true ∧ encodableB kv.2 = true)
    (hnd : (kvs.map (fun kv => keyStr kv.1)).Nodup) :
    encodableB (.dict (stringifiedEntries kvs)) = true := by
  simp only [encodableB, Bool.and_eq_true, decide_eq_true_eq]
  refine ⟨⟨keysHomogB_stringified kvs, ?_⟩, ?_⟩
  · have : (stringifiedEntries kvs).map (fun kv => keyStr kv.1) =
        kvs.map (fun kv => keyStr kv.1) := by
      simp [stringifiedEntries, List.map_map, Function.comp, keyStr]
    rw [this]
    exact hnd
  · exact encodableEntriesB_stringified kvs hall

theorem renderJ_mk_ne_empty (j : J) : String.mk (renderJ 0 j) ≠ "" := by
  obtain ⟨c, r', heq, _, _, _, _⟩ := renderJ_head 0 j
  rw [heq]
  intro h
  have := string_mk_inj _ _ (h.trans rfl)
  simp at this

theorem nodup_stringifyKey (kvs : List (PyKey × PyObj))
    (hnd : (kvs.map (fun kv => keyStr kv.1)).Nodup) :
    (kvs.map (fun kv => stringifyKey kv.1)).Nodup := by
  have he : kvs.map (fun kv => stringifyKey kv.1) =
      (kvs.map (fun kv => keyStr kv.1)).map PyKey.str := by
    simp [List.map_map, Function.comp, stringifyKey_eq]
  rw [he]
  exact hnd.map (fun a b hab => by injection hab)

theorem sorted_stringified_fst (kvs : List (PyKey × PyObj)) :
    ∀ kv ∈ isortBy entryKeyLeB (expectedEntries (stringifiedEntries kvs)),
      ∃ s, kv.1 = PyKey.str s := by
  intro kv hkv
  have h1 : kv ∈ expectedEntries (stringifiedEntries kvs) :=
    (isortBy_perm _ _).subset hkv
  have h2 : kv.1 ∈ (expectedEntries (stringifiedEntries kvs)).map Prod.fst :=
    List.mem_map_of_mem _ h1
  rw [expectedEntries_fst] at h2
  simp only [stringifiedEntries, List.map_map, Function.comp, List.mem_map] at h2
  obtain ⟨x, _, hx⟩ := h2
  exact ⟨keyStr x.1, hx.symm⟩

theorem sorted_stringified_id (kvs : List (PyKey × PyObj)) :
    (isortBy entryKeyLeB (expectedEntries (stringifiedEntries kvs))).map
      (fun kv => (PyKey.str (keyStr kv.1), kv.2)) =
      isortBy entryKeyLeB (expectedEntries (stringifiedEntries kvs)) := by
  have h : (isortBy entryKeyLeB (expectedEntries (stringifiedEntries kvs))).map
      (fun kv => (PyKey.str (keyStr kv.1), kv.2)) =
      (isortBy entryKeyLeB (expectedEntries (stringifiedEntries kvs))).map id := by
    apply List.map_congr_left
    intro a ha
    obtain ⟨s, hs⟩ := sorted_stringified_fst kvs a ha
    obtain ⟨a1, a2⟩ := a
    simp only at hs
    subst hs
    simp [keyStr]
  rw [h, List.map_id]

theorem nodup_intified_sorted (kvs : List (PyKey × PyObj))
    (hndI : (kvs.map (fun kv => intifyKey (.str (keyStr kv.1)))).Nodup) :
    ((isortBy entryKeyLeB (expectedEntries (stringifiedEntries kvs))).map
      (fun kv => intifyKey kv.1)).Nodup := by
  have hperm : ((isortBy entryKeyLeB (expectedEntries (stringifiedEntries kvs))).map
      (fun kv => intifyKey kv.1)).Perm
      ((expectedEntries (stringifiedEntries kvs)).map (fun kv => intifyKey kv.1)) :=
    (isortBy_perm _ _).map _
  apply hperm.nodup_iff.mpr
  have h1 : (expectedEntries (stringifiedEntries kvs)).map (fun kv => intifyKey kv.1) =
      ((expectedEntries (stringifiedEntries kvs)).map Prod.fst).map intifyKey := by
    simp [List.map_map, Function.comp]
  rw [h1, expectedEntries_fst]
  have h2 : ((stringifiedEntries kvs).map Prod.fst).map intifyKey =
      kvs.map (fun kv => intifyKey (.str (keyStr kv.1))) := by
    simp [stringifiedEntries, List.map_map, Function.comp]
  rw [h2]
  exact hndI

/-- The full round trip: on a well-formed top-level mapping, save followed
by load succeeds and returns exactly the expected image. -/
theorem pipeline_roundtrip (kvs : List (PyKey × PyObj))
    (h : topSaveableB kvs = true) :
    pipeline true (.dict kvs) = .ok (expectedLoad kvs) := by
  simp only [topSaveableB, Bool.and_eq_true, List.all_eq_true, decide_eq_true_eq] at h
  obtain ⟨hall, hndI⟩ := h
  have hnd : (kvs.map (fun kv => keyStr kv.1)).Nodup := nodup_keyStr_of_intified kvs hndI
  have hfold : kvs.foldl (fun out kv => insertAssoc (stringifyKey kv.1) kv.2 out) [] =
      stringifiedEntries kvs := by
    rw [foldl_insert_keymap stringifyKey kvs (nodup_stringifyKey kvs hnd)]
    simp [stringifiedEntries, stringifyKey_eq]
  obtain ⟨j, hn, hs, hf⟩ := normFromJ (.dict (stringifiedEntries kvs))
    (encodableB_stringified kvs hall hnd)
  have hsave : _save_json (.dict kvs) = .ok (String.mk (renderJ 0 j)) := by
    simp only [_save_json, saveJsonTree, _stringify_keys, hfold, ok_bind, hn]
    rfl
  have hEV : expectedValue (.dict (stringifiedEntries kvs)) =
      .dict (isortBy entryKeyLeB (expectedEntries (stringifiedEntries kvs))) := by
    simp only [expectedValue, sorted_stringified_id]
  have hload : _load_json true true (String.mk (renderJ 0 j)) =
      _intify_keys (expectedValue (.dict (stringifiedEntries kvs))) := by
    unfold _load_json
    rw [if_pos rfl, if_neg (renderJ_mk_ne_empty j)]
    simp only [jsonLoadsPy, data_mk, jsonParse_renderJ j hs, hf, ok_bind]
  have hintify : _intify_keys
      (.dict (isortBy entryKeyLeB (expectedEntries (stringifiedEntries kvs)))) =
      .ok (.dict ((isortBy entryKeyLeB (expectedEntries (stringifiedEntries kvs))).map
        (fun kv => (intifyKey kv.1, kv.2)))) := by
    simp only [_intify_keys]
    rw [foldl_insert_keymap intifyKey _ (nodup_intified_sorted kvs hndI)]
  unfold pipeline
  rw [hsave]
  have hb : (Except.ok (String.mk (renderJ 0 j)) : Except Err String).bind
      (fun s => _load_json true true s) = _load_json true true (String.mk (renderJ 0 j)) := rfl
  rw [hb, hload, hEV, hintify]
  rfl

theorem err_bind {α β : Type} (e : Err) (f : α → Except Err β) :
    (Except.error e >>= f : Except Err β) = Except.error e := rfl

theorem insSorted_congr (le le' : α → α → Bool) (x : α) :
    ∀ l : List α, (∀ b ∈ l, le x b = le' x b) →
    insSorted le x l = insSorted le' x l := by
  intro l
  induction l with
  | nil => intro _; rfl
  | cons y ys ih =>
    intro h
    simp only [insSorted, h y (by simp)]
    by_cases hxy : le' x y = true
    · simp [hxy]
    · simp only [hxy, if_false, ite_false, Bool.false_eq_true]
      rw [ih (fun b hb => h b (by simp [hb]))]

theorem isortBy_congr (le le' : α → α → Bool) :
    ∀ l : List α, (∀ a ∈ l, ∀ b ∈ l, le a b = le' a b) →
    isortBy le l = isortBy le' l := by
  intro l
  induction l with
  | nil => intro _; rfl
  | cons x xs ih =>
    intro h
    simp only [isortBy]
    rw [ih (fun a ha b hb => h a (by simp [ha]) b (by simp [hb]))]
    apply insSorted_congr
    intro b hb
    have hbmem : b ∈ xs := ((isortBy_perm le' xs).mem_iff).mp hb
    exact h x (by simp) b (by simp [hbmem])

theorem chainLexLeB_of_pairwise : ∀ l : List String,
    l.Pairwise (fun a b => lexLeB a.data b.data = true) → chainLexLeB l = true := by
  intro l
  induction l with
  | nil => intro _; rfl
  | cons a t ih =>
    intro h
    cases t with
    | nil => rfl
    | cons b t2 =>
      rcases List.pairwise_cons.mp h with ⟨ha, h2⟩
      simp only [chainLexLeB, Bool.and_eq_true]
      exact ⟨ha b (by simp), ih h2⟩

theorem normalizeEntries_cons_ok (kv : PyKey × PyObj) (rest : List (PyKey × PyObj))
    (es : List (PyKey × J)) (h : normalizeEntries (kv :: rest) = .ok es) :
    ∃ j t, normalizeVal kv.2 = .ok j ∧ normalizeEntries rest = .ok t ∧
      es = (kv.1, j) :: t := by
  cases hv : normalizeVal kv.2 with
  | error e =>
    rw [normalizeEntries, hv, err_bind] at h
    exact absurd h (by simp)
  | ok j =>
    cases ht : normalizeEntries rest with
    | error e =>
      rw [normalizeEntries, hv, ok_bind, ht, err_bind] at h
      exact absurd h (by simp)
    | ok t =>
      rw [normalizeEntries, hv, ok_bind, ht, ok_bind] at h
      refine ⟨j, t, rfl, rfl, ?_⟩
      cases h
      rfl

theorem normalizeEntries_perm {kvs1 kvs2 : List (PyKey × PyObj)} (hp : kvs1.Perm kvs2) :
    ∀ es1, normalizeEntries kvs1 = .ok es1 →
    ∃ es2, normalizeEntries kvs2 = .ok es2 ∧ es1.Perm es2 := by
  induction hp with
  | nil => intro es1 h; exact ⟨es1, h, List.Perm.refl _⟩
  | cons x hp ih =>
    intro es1 h
    obtain ⟨j, t, hv, ht, rfl⟩ := normalizeEntries_cons_ok x _ _ h
    obtain ⟨t2, ht2, hpt⟩ := ih t ht
    refine ⟨(x.1, j) :: t2, ?_, hpt.cons _⟩
    rw [normalizeEntries, hv, ok_bind, ht2, ok_bind]
  | swap x y l =>
    intro es1 h
    obtain ⟨jy, t, hvy, ht, rfl⟩ := normalizeEntries_cons_ok y _ _ h
    obtain ⟨jx, t2, hvx, ht2, rfl⟩ := normalizeEntries_cons_ok x _ _ ht
    refine ⟨(x.1, jx) :: (y.1, jy) :: t2, ?_, List.Perm.swap _ _ _⟩
    rw [normalizeEntries, hvx, ok_bind, normalizeEntries, hvy, ok_bind, ht2, ok_bind, ok_bind]
  | trans hp1 hp2 ih1 ih2 =>
    intro es1 h
    obtain ⟨em, hm, hq1⟩ := ih1 es1 h
    obtain ⟨e2, h2, hq2⟩ := ih2 em hm
    exact ⟨e2, h2, hq1.trans hq2⟩

theorem topSaveableB_perm {kvs1 kvs2 : List (PyKey × PyObj)} (hp : kvs1.Perm kvs2)
    (h1 : topSaveableB kvs1 = true) : topSaveableB kvs2 = true := by
  simp only [topSaveableB, Bool.and_eq_true, List.all_eq_true, decide_eq_true_eq] at h1 ⊢
  exact ⟨fun kv hkv => h1.1 kv (hp.symm.subset hkv),
    ((hp.map _).nodup_iff).mp h1.2⟩

theorem saveJsonTree_eq (kvs : List (PyKey × PyObj)) (h : topSaveableB kvs = true) :
    ∃ es, normalizeEntries (stringifiedEntries kvs) = .ok es ∧
      List.Forall₂ RelEJ es (expectedEntries (stringifiedEntries kvs)) ∧
      saveJsonTree (.dict kvs) =
        .ok (.obj ((isortBy entryLeB es).map (fun e => (keyStr e.1, e.2)))) := by
  simp only [topSaveableB, Bool.and_eq_true, List.all_eq_true, decide_eq_true_eq] at h
  obtain ⟨hall', hndI⟩ := h
  have hall : ∀ kv ∈ kvs, pyKeySafeB kv.1 = true ∧ encodableB kv.2 = true := by
    intro kv hkv
    have := hall' kv hkv
    simpa [Bool.and_eq_true] using this
  have hnd : (kvs.map (fun kv => keyStr kv.1)).Nodup := nodup_keyStr_of_intified kvs hndI
  have hfold : kvs.foldl (fun out kv => insertAssoc (stringifyKey kv.1) kv.2 out) [] =
      stringifiedEntries kvs := by
    rw [foldl_insert_keymap stringifyKey kvs (nodup_stringifyKey kvs hnd)]
    simp [stringifiedEntries, stringifyKey_eq]
  obtain ⟨es, hn, hF⟩ := normFromJEntries (stringifiedEntries kvs)
    (by simpa [stringifiedEntries] using encodableEntriesB_stringified kvs hall)
  refine ⟨es, hn, hF, ?_⟩
  simp only [saveJsonTree, _stringify_keys, hfold, ok_bind, normalizeVal, hn, ok_bind,
    keysHomogB_stringified, if_true, ite_true]

theorem str_data_ext (s t : String) (h : s.data = t.data) : s = t := by
  rw [← mkData s, ← mkData t, h]

theorem norm_entries_fst_str (kvs : List (PyKey × PyObj)) {es : List (PyKey × J)}
    (hF : List.Forall₂ RelEJ es (expectedEntries (stringifiedEntries kvs))) :
    ∀ a ∈ es, ∃ s, a.1 = PyKey.str s := by
  intro a ha
  have h1 : a.1 ∈ es.map Prod.fst := List.mem_map_of_mem _ ha
  rw [forall₂_fst_eq hF, expectedEntries_fst] at h1
  simp only [stringifiedEntries, List.map_map, Function.comp, List.mem_map] at h1
  obtain ⟨x, _, hx⟩ := h1
  exact ⟨keyStr x.1, hx.symm⟩

theorem norm_entries_keystr_nodup (kvs : List (PyKey × PyObj)) {es : List (PyKey × J)}
    (hF : List.Forall₂ RelEJ es (expectedEntries (stringifiedEntries kvs)))
    (hnd : (kvs.map (fun kv => keyStr kv.1)).Nodup) :
    (es.map (fun e => keyStr e.1)).Nodup := by
  have h1 : es.map (fun e => keyStr e.1) = (es.map Prod.fst).map keyStr := by
    simp [List.map_map, Function.comp]
  rw [h1, forall₂_fst_eq hF, expectedEntries_fst]
  have h2 : ((stringifiedEntries kvs).map Prod.fst).map keyStr =
      kvs.map (fun kv => keyStr kv.1) := by
    simp [stringifiedEntries, List.map_map, Function.comp, keyStr]
  rw [h2]
  exact hnd

theorem isortBy_entry_str (kvs : List (PyKey × PyObj)) {es : List (PyKey × J)}
    (hF : List.Forall₂ RelEJ es (expectedEntries (stringifiedEntries kvs))) :
    isortBy entryLeB es = isortBy strEntryLeB es := by
  apply isortBy_congr
  intro a ha b hb
  obtain ⟨s, hs⟩ := norm_entries_fst_str kvs hF a ha
  obtain ⟨t, ht⟩ := norm_entries_fst_str kvs hF b hb
  simp [entryLeB, strEntryLeB, hs, ht, pyKeyLeB, keyStr]

theorem strEntryLeB_total (a b : PyKey × J) :
    strEntryLeB a b = true ∨ strEntryLeB b a = true := lexLeB_total _ _

theorem strEntryLeB_trans (a b c : PyKey × J) (h1 : strEntryLeB a b = true)
    (h2 : strEntryLeB b c = true) : strEntryLeB a c = true := lexLeB_trans _ _ _ h1 h2

theorem sorted_entries_eq (kvs1 kvs2 : List (PyKey × PyObj)) (hp : kvs1.Perm kvs2)
    (hnd1 : (kvs1.map (fun kv => keyStr kv.1)).Nodup)
    {es1 es2 : List (PyKey × J)}
    (hn1 : normalizeEntries (stringifiedEntries kvs1) = .ok es1)
    (hn2 : normalizeEntries (stringifiedEntries kvs2) = .ok es2)
    (hF1 : List.Forall₂ RelEJ es1 (expectedEntries (stringifiedEntries kvs1)))
    (hF2 : List.Forall₂ RelEJ es2 (expectedEntries (stringifiedEntries kvs2))) :
    isortBy entryLeB es1 = isortBy entryLeB es2 := by
  have hp' : (stringifiedEntries kvs1).Perm (stringifiedEntries kvs2) := hp.map _
  have hpe : es1.Perm es2 := by
    obtain ⟨es2', hn2', hpe'⟩ := normalizeEntries_perm hp' es1 hn1
    rw [hn2'] at hn2
    injection hn2 with hx
    exact hx ▸ hpe'
  rw [isortBy_entry_str kvs1 hF1, isortBy_entry_str kvs2 hF2]
  have hP1 : (isortBy strEntryLeB es1).Pairwise (fun a b => strEntryLeB a b = true) :=
    isortBy_pairwise strEntryLeB strEntryLeB_total strEntryLeB_trans es1
  have hP2 : (isortBy strEntryLeB es2).Pairwise (fun a b => strEntryLeB a b = true) :=
    isortBy_pairwise strEntryLeB strEntryLeB_total strEntryLeB_trans es2
  have hperm : (isortBy strEntryLeB es1).Perm (isortBy strEntryLeB es2) :=
    ((isortBy_perm _ es1).trans hpe).trans (isortBy_perm _ es2).symm
  apply sorted_perm_eq _ _ hperm hP1 hP2
  intro a b ha hb hab hba
  have ha' : a ∈ es1 := (isortBy_perm _ es1).subset ha
  have hb' : b ∈ es1 := (isortBy_perm _ es1).subset hb
  have hdata : (keyStr a.1).data = (keyStr b.1).data := lexLeB_antisymm _ _ hab hba
  have hkey : keyStr a.1 = keyStr b.1 := str_data_ext _ _ hdata
  exact List.inj_on_of_nodup_map (norm_entries_keystr_nodup kvs1 hF1 hnd1) ha' hb' hkey

theorem topKeysIntifiedB_map_intify (l : List (PyKey × PyObj)) :
    topKeysIntifiedB (l.map (fun kv => (intifyKey kv.1, kv.2))) = true := by
  simp only [topKeysIntifiedB, List.all_map, List.all_eq_true]
  intro kv _
  cases hk : kv.1 with
  | int n => simp [Function.comp, intifyKey, hk]
  | str s =>
    by_cases hd : strIsDigitB s = true
    · simp [Function.comp, intifyKey, hk, hd]
    · simp only [Bool.not_eq_true] at hd
      simp [Function.comp, intifyKey, hk, hd]

theorem nestedKeysAllStrE_eq_all : ∀ l : List (PyKey × PyObj),
    nestedKeysAllStrE l = l.all (fun kv => !(_is_integer kv.1) && nestedKeysAllStrB kv.2) := by
  intro l
  induction l with
  | nil => rfl
  | cons kv rest ih =>
    simp only [nestedKeysAllStrE, List.all_cons, ih, Bool.and_assoc]

mutual

theorem expectedValue_nestedStr : ∀ v : PyObj, nestedKeysAllStrB (expectedValue v) = true
  | .none => rfl
  | .bool _ => rfl
  | .int _ => rfl
  | .str _ => rfl
  | .list xs => by
    simp only [expectedValue, nestedKeysAllStrB]
    exact expectedList_nestedStr xs
  | .dict kvs => by
    simp only [expectedValue, nestedKeysAllStrB]
    rw [nestedKeysAllStrE_eq_all, List.all_eq_true]
    intro x hx
    simp only [List.mem_map] at hx
    obtain ⟨a, ha, rfl⟩ := hx
    have ha2 : a ∈ expectedEntries kvs := (isortBy_perm _ _).subset ha
    have hv := List.all_eq_true.mp (expectedEntries_nestedStr kvs) a ha2
    simp only [_is_integer, Bool.not_false, Bool.true_and]
    exact hv
  | .ndarray dt shape elems => by
    simp only [expectedValue]
    split
    · simp only [nestedKeysAllStrB]
      have h : ∀ es : List Int, nestedKeysAllStrL (es.map PyObj.int) = true := by
        intro es
        induction es with
        | nil => rfl
        | cons e t ih => simp [nestedKeysAllStrL, nestedKeysAllStrB, ih]
      exact h elems
    · rfl
  | .qbytearray _ => rfl

theorem expectedList_nestedStr : ∀ xs : List PyObj,
    nestedKeysAllStrL (expectedList xs) = true
  | [] => rfl
  | x :: xs => by
    simp only [expectedList, nestedKeysAllStrL, Bool.and_eq_true]
    exact ⟨expectedValue_nestedStr x, expectedList_nestedStr xs⟩

theorem expectedEntries_nestedStr : ∀ kvs : List (PyKey × PyObj),
    (expectedEntries kvs).all (fun kv => nestedKeysAllStrB kv.2) = true
  | [] => rfl
  | kv :: rest => by
    simp only [expectedEntries, List.all_cons, Bool.and_eq_true]
    exact ⟨expectedValue_nestedStr kv.2, expectedEntries_nestedStr rest⟩

end

theorem jHasObjL_nums : ∀ es : List Int, jHasObjL (es.map J.num) = false := by
  intro es
  induction es with
  | nil => rfl
  | cons e t ih => simp [jHasObjL, jHasObjB, ih]

theorem expectedLoad_single (v : PyObj) :
    expectedLoad [(.int 0, v)] = .dict [(.int 0, expectedValue v)] := by
  have h0 : keyStr (PyKey.int 0) = "0" := rfl
  have h1 : intifyKey (.str "0") = .int 0 := rfl
  simp only [expectedLoad, stringifiedEntries, List.map_cons, List.map_nil, h0,
    expectedEntries, isortBy, insSorted, h1]

/-! ## Claim theorems -/

/-- Claim C1, corrected: the round trip restores the saved mapping, but the
digit-string-to-integer key re-normalization is applied at the TOP level
only; every nested mapping in the result has exclusively string keys, the
nested integer keys having been stringified by serialization and never
converted back. -/
theorem intify_top_level_only (kvs : List (PyKey × PyObj))
    (h : topSaveableB kvs = true) :
    pipeline true (.dict kvs) = .ok (expectedLoad kvs) ∧
    ∃ L, expectedLoad kvs = .dict L ∧ topKeysIntifiedB L = true ∧
      L.all (fun kv => nestedKeysAllStrB kv.2) = true := by
  refine ⟨pipeline_roundtrip kvs h, _, rfl, topKeysIntifiedB_map_intify _, ?_⟩
  rw [List.all_eq_true]
  intro kv hkv
  simp only [List.mem_map] at hkv
  obtain ⟨a, ha, rfl⟩ := hkv
  have ha2 : a ∈ expectedEntries (stringifiedEntries kvs) := (isortBy_perm _ _).subset ha
  simpa using List.all_eq_true.mp (expectedEntries_nestedStr (stringifiedEntries kvs)) a ha2

/-- Claim C1, counterexample: a nested integer key `1` comes back from the
round trip as the string key `"1"`, so re-normalization is not recursive,
contradicting the claim. -/
theorem nested_int_key_not_restored :
    pipeline true (.dict [(.str "a", .dict [(.int 1, .int 2)])]) =
      .ok (.dict [(.str "a", .dict [(.str "1", .int 2)])]) ∧
    PyObj.dict [(.str "a", .dict [(.str "1", .int 2)])] ≠
      PyObj.dict [(.str "a", .dict [(.int 1, .int 2)])] := by
  refine ⟨rfl, ?_⟩
  intro hcontra
  simp at hcontra

/-- Witness for the corrected claim C1 at a concrete mapping. -/
theorem intify_top_level_only_witness :
    topSaveableB [(PyKey.int 5, PyObj.none),
      (.str "b", PyObj.dict [(.str "c", PyObj.int 1)])] = true ∧
    (pipeline true (.dict [(PyKey.int 5, PyObj.none),
        (.str "b", PyObj.dict [(.str "c", PyObj.int 1)])]) =
      .ok (expectedLoad [(PyKey.int 5, PyObj.none),
        (.str "b", PyObj.dict [(.str "c", PyObj.int 1)])]) ∧
     ∃ L, expectedLoad [(PyKey.int 5, PyObj.none),
        (.str "b", PyObj.dict [(.str "c", PyObj.int 1)])] = .dict L ∧
       topKeysIntifiedB L = true ∧
       L.all (fun kv => nestedKeysAllStrB kv.2) = true) :=
  ⟨by decide, intify_top_level_only _ (by decide)⟩

/-- Claim C2, confirmed: an array that is not 1-dimensional with at most
10 elements round-trips through the tagged base64/dtype/shape form to an
identical array (dtype, shape and elements all equal). -/
theorem big_ndarray_roundtrip (dt : Dtype) (shape : List Nat) (elems : List Int)
    (hlen : elems.length = shape.prod)
    (hrange : elems.all (fun e => dt.inRangeB e) = true)
    (hbig : (shape.length = 1 && decide (shape.headD 0 ≤ 10)) = false) :
    pipeline true (.dict [(.int 0, .ndarray dt shape elems)]) =
      .ok (.dict [(.int 0, .ndarray dt shape elems)]) := by
  have hts : topSaveableB [(.int 0, .ndarray dt shape elems)] = true := by
    simp [topSaveableB, pyKeySafeB, encodableB, hlen, hrange]
  rw [pipeline_roundtrip _ hts, expectedLoad_single]
  have hev : expectedValue (.ndarray dt shape elems) = .ndarray dt shape elems := by
    simp only [expectedValue]
    rw [if_neg]
    rw [hbig]
    simp
  rw [hev]

/-- Witness for C2: an 11-element 1-D `uint8` array. -/
theorem big_ndarray_roundtrip_witness :
    ([(0 : Int), 1, 2, 3, 4, 5, 6, 7, 8, 9, 10].length = [11].prod ∧
      [(0 : Int), 1, 2, 3, 4, 5, 6, 7, 8, 9, 10].all
        (fun e => Dtype.inRangeB .uint8 e) = true ∧
      (([11] : List Nat).length = 1 && decide (([11] : List Nat).headD 0 ≤ 10)) = false) ∧
    pipeline true (.dict [(.int 0,
        .ndarray .uint8 [11] [0, 1, 2, 3, 4, 5, 6, 7, 8, 9, 10])]) =
      .ok (.dict [(.int 0, .ndarray .uint8 [11] [0, 1, 2, 3, 4, 5, 6, 7, 8, 9, 10])]) :=
  ⟨⟨by decide, by decide, by decide⟩,
    big_ndarray_roundtrip .uint8 [11] [0, 1, 2, 3, 4, 5, 6, 7, 8, 9, 10]
      (by decide) (by decide) (by decide)⟩

/-- Claim C3, code bug: with `PyQt5` unavailable the decoder is documented
to fall back to the raw decoded bytes, but `_decode_qbytearray` leaves
`out` unassigned on `ImportError` and `return out` raises `NameError`, so
decoding a blob-tagged object errors instead of returning bytes. -/
theorem qbytearray_no_pyqt_name_not_bytes :
    _load_json true false "\x7b\"__qbytearray__\": \"AA==\"\x7d" = .error .nameError := rfl

/-- Claim C4, corrected: a non-mapping input to `_save_json` fails the
`assert isinstance(data, dict)` with `AssertionError`, not with the
`TypeError` the spec states. -/
theorem save_non_mapping_assertion (v : PyObj)
    (h : ∀ kvs : List (PyKey × PyObj), v ≠ .dict kvs) :
    _save_json v = .error .assertionError := by
  cases v with
  | dict kvs => exact absurd rfl (h kvs)
  | none => rfl
  | bool b => rfl
  | int n => rfl
  | str s => rfl
  | list xs => rfl
  | ndarray dt shape elems => rfl
  | qbytearray bs => rfl

/-- Claim C4, counterexample: encoding the non-mapping `3` raises
`AssertionError`, which is a different error kind than `TypeError`. -/
theorem save_int_assertion_not_type :
    _save_json (.int 3) = .error .assertionError ∧ Err.assertionError ≠ Err.typeError :=
  ⟨rfl, by decide⟩

/-- Witness for the corrected claim C4 at a concrete non-mapping. -/
theorem save_non_mapping_assertion_witness :
    (∀ kvs : List (PyKey × PyObj), PyObj.list [] ≠ PyObj.dict kvs) ∧
      _save_json (PyObj.list []) = .error .assertionError :=
  ⟨(fun _ h => nomatch h), save_non_mapping_assertion (PyObj.list []) (fun _ h => nomatch h)⟩

/-- Claim C5, corrected: the serialized text is deterministic — any
reordering of the same mapping produces byte-identical text — and the
top-level object's keys are emitted in lexicographic order; but nested
integer-keyed objects are ordered numerically before stringification, not
lexicographically as claimed. -/
theorem save_perm_invariant_top_lex (kvs1 kvs2 : List (PyKey × PyObj))
    (h1 : topSaveableB kvs1 = true) (hp : kvs1.Perm kvs2) :
    _save_json (.dict kvs1) = _save_json (.dict kvs2) ∧
    ∃ j, saveJsonTree (.dict kvs1) = .ok j ∧ topObjKeysLexSortedB j = true := by
  have h2 := topSaveableB_perm hp h1
  obtain ⟨es1, hn1, hF1, hs1⟩ := saveJsonTree_eq kvs1 h1
  obtain ⟨es2, hn2, hF2, hs2⟩ := saveJsonTree_eq kvs2 h2
  have hndI1 : (kvs1.map (fun kv => intifyKey (.str (keyStr kv.1)))).Nodup := by
    have h1' := h1
    simp only [topSaveableB, Bool.and_eq_true, decide_eq_true_eq] at h1'
    exact h1'.2
  have hnd1 : (kvs1.map (fun kv => keyStr kv.1)).Nodup :=
    nodup_keyStr_of_intified kvs1 hndI1
  have heq : isortBy entryLeB es1 = isortBy entryLeB es2 :=
    sorted_entries_eq kvs1 kvs2 hp hnd1 hn1 hn2 hF1 hF2
  constructor
  · simp only [_save_json, hs1, hs2, heq]
  · refine ⟨_, hs1, ?_⟩
    simp only [topObjKeysLexSortedB, List.map_map]
    rw [isortBy_entry_str kvs1 hF1]
    apply chainLexLeB_of_pairwise
    have hP : (isortBy strEntryLeB es1).Pairwise (fun a b => strEntryLeB a b = true) :=
      isortBy_pairwise strEntryLeB strEntryLeB_total strEntryLeB_trans es1
    exact List.Pairwise.map _ (fun a b hab => hab) hP

/-- Claim C5, counterexample: a nested object with integer keys 2 and 10
is emitted with `"2"` before `"10"`, an order that is not lexicographic
(`"10" < "2"` as strings), so keys are not always in lexicographic
order. -/
theorem nested_int_keys_not_lex_sorted :
    _save_json (.dict [(.int 0, .dict [(.int 2, PyObj.none), (.int 10, PyObj.none)])]) =
      .ok "\x7b\n  \"0\": \x7b\n    \"2\": null,\n    \"10\": null\n  \x7d\n\x7d" ∧
    (saveJsonTree (.dict [(.int 0, .dict [(.int 2, PyObj.none), (.int 10, PyObj.none)])])).map
      allObjKeysLexSortedB = .ok false :=
  ⟨rfl, rfl⟩

/-- Witness for the corrected claim C5 on a two-entry mapping and its
transposition. -/
theorem save_perm_invariant_top_lex_witness :
    topSaveableB [(PyKey.str "b", PyObj.none), (.str "a", PyObj.none)] = true ∧
    (_save_json (.dict [(PyKey.str "b", PyObj.none), (.str "a", PyObj.none)]) =
      _save_json (.dict [(PyKey.str "a", PyObj.none), (.str "b", PyObj.none)]) ∧
     ∃ j, saveJsonTree (.dict [(PyKey.str "b", PyObj.none), (.str "a", PyObj.none)]) =
        .ok j ∧ topObjKeysLexSortedB j = true) :=
  ⟨by decide, save_perm_invariant_top_lex _ _ (by decide) (List.Perm.swap _ _ _)⟩

/-- Claim C6, confirmed: a 1-dimensional array of at most 10 elements is
encoded by `_CustomEncoder.default` as a plain list and serialized as a
plain JSON array of numbers containing no object at all, tag objects
included. -/
theorem small_1d_array_plain_list (dt : Dtype) (shape : List Nat) (elems : List Int)
    (hsmall : (shape.length = 1 && decide (shape.headD 0 ≤ 10)) = true) :
    _CustomEncoder_default (.ndarray dt shape elems) = .ok (.list (elems.map PyObj.int)) ∧
    normalizeVal (.ndarray dt shape elems) = .ok (.arr (elems.map J.num)) ∧
    jHasObjB (.arr (elems.map J.num)) = false := by
  refine ⟨?_, ?_, ?_⟩
  · simp only [_CustomEncoder_default]
    rw [if_pos hsmall]
  · simp only [normalizeVal]
    rw [if_pos hsmall]
  · simp only [jHasObjB]
    exact jHasObjL_nums elems

/-- Witness for C6: a 3-element 1-D `int64` array. -/
theorem small_1d_array_plain_list_witness :
    ((([3] : List Nat).length = 1 && decide (([3] : List Nat).headD 0 ≤ 10)) = true) ∧
    (_CustomEncoder_default (.ndarray .int64 [3] [5, -7, 11]) =
        .ok (.list ([5, -7, 11].map PyObj.int)) ∧
      normalizeVal (.ndarray .int64 [3] [5, -7, 11]) =
        .ok (.arr ([5, -7, 11].map J.num)) ∧
      jHasObjB (.arr ([5, -7, 11].map J.num)) = false) :=
  ⟨by decide, small_1d_array_plain_list .int64 [3] [5, -7, 11] (by decide)⟩

/-- Claim C7, confirmed: loading an existing file with empty contents
yields the empty mapping, whether or not `PyQt5` is available. -/
theorem load_empty_text_empty_mapping (qtAvail : Bool) :
    _load_json true qtAvail "" = .ok (.dict []) := by
  cases qtAvail <;> rfl

/-- Claim C8, confirmed: two distinct digit-only keys denoting the same
integer collapse to one integer key (the later value wins), and a
leading-zero key re-encodes as its canonical decimal form, not its
original text. -/
theorem leading_zero_key_collision :
    _load_json true true "\x7b\"03\": 1, \"3\": 2\x7d" = .ok (.dict [(.int 3, .int 2)]) ∧
    stringifyKey (intifyKey (.str "03")) = .str "3" :=
  ⟨rfl, rfl⟩

/-- Claim C9, confirmed: a grammatically valid text whose top-level value
is not an object fails `_intify_keys`'s mapping assertion. -/
theorem load_non_object_assertion :
    _load_json true true "[1, 2]" = .error .assertionError := rfl

/-- Claim C10, confirmed: key stringification happens only at the top
level, so a nested mapping mixing an integer and a string key makes
`sorted` raise `TypeError`, while the same mixed mapping at top level
serializes fine. -/
theorem nested_mixed_keys_type_failure :
    _save_json (.dict [(.int 0, .dict [(.int 1, PyObj.none), (.str "a", PyObj.none)])]) =
      .error .typeError ∧
    _save_json (.dict [(.int 1, PyObj.none), (.str "a", PyObj.none)]) =
      .ok "\x7b\n  \"1\": null,\n  \"a\": null\n\x7d" :=
  ⟨rfl, rfl⟩
